import Mathlib

/-!
Verification of the zcalendar library (synthesio/zcalendar) against its
natural-language specification.

The Go sources are shallowly embedded as follows.

* Go strings are embedded as `List Char` (the library only manipulates ASCII
  text).  `strings.Split` on a one-character separator is `splitChar`,
  `strings.Split` on `".."` is `splitDots`, `strings.Fields` is `goFields`.
* Go `int` values appearing in components are embedded as `Nat`: every
  component produced by the parser has non-negative fields (`parseValue` /
  `parseRange` reject negative values), and the spec's data model declares
  `From`/`To`/`Repeat` non-negative.  Where Go computes differences
  (`components.Next`'s `diff`), the embedding uses `Int` subtraction.
* The unbounded Go loops (the repeat-expansion loop of `components.Values`
  and the rollover loop of `Expression.Next`) are embedded as structural
  recursion on an explicit fuel argument, with fuel chosen provably larger
  than the number of iterations the Go loop can perform; fuel-independence
  lemmas (`expandF_stable`, `run_mono`) certify that the fuel choice does
  not affect the result.
* The Go `time` package is external to the repository.  `time.Date`,
  `Day`, `Weekday` and friends are modelled by proleptic-Gregorian
  calendar arithmetic on a fixed-offset timezone: an instant is a civil
  `DateTime` tuple, and `wallSecs` converts a (possibly denormalised)
  tuple to absolute seconds exactly the way `time.Date` does (months are
  normalised into years first, then day/hour/minute/second offsets are
  added as plain arithmetic).  Timezones are represented by their name;
  the conversion `d.In(loc)` is the identity in this fixed-offset model,
  and daylight-saving shifts are out of scope.
-/

set_option maxRecDepth 200000

/-! ### Component model (src/component.go) -/

structure component where
  From : Nat
  To : Nat
  Repeat : Nat
deriving DecidableEq, Repr

/-- One iteration's contribution of the `components.Values` loop
(src/component.go lines 166-173): a single value when `To` is unset,
otherwise the integers from `From` to `min To max`. -/
def contrib (f t max : Nat) : List Nat :=
  if t = 0 then [f] else List.range' f (min t max + 1 - f)

/-- The repeat-expansion loop of `components.Values`
(src/component.go lines 165-188), as structural recursion on fuel.
Each recursive step is one Go iteration: emit the contribution, stop if
`Repeat` is zero, shift `From`/`To` by `Repeat`, stop once the shifted
`From` exceeds `max`. -/
def expandF : Nat → Nat → Nat → Nat → Nat → List Nat
  | 0, _, _, _, _ => []
  | fuel+1, f, t, r, max =>
    contrib f t max ++
      (if r = 0 then []
       else if f + r > max then []
       else expandF fuel (f + r) (if t = 0 then 0 else t + r) r max)

/-- Expansion of one component.  `max + 2` units of fuel are always enough:
when `Repeat` is positive the shifted `From` grows by at least one per
iteration and iteration stops once it exceeds `max` (see `expandF_stable`). -/
def expand (f t r max : Nat) : List Nat := expandF (max + 2) f t r max

/-- The fuel choice in `expand` is irrelevant: any two sufficient fuels give
the same list, so `expand` computes exactly what the unbounded Go loop does. -/
theorem expandF_stable (fuel₁ fuel₂ f t r max : Nat)
    (h₁ : 1 ≤ fuel₁) (h₁' : max + 2 - f ≤ fuel₁)
    (h₂ : 1 ≤ fuel₂) (h₂' : max + 2 - f ≤ fuel₂) :
    expandF fuel₁ f t r max = expandF fuel₂ f t r max := by
  induction fuel₁ generalizing fuel₂ f t with
  | zero => omega
  | succ n ih =>
    match fuel₂ with
    | 0 => omega
    | m+1 =>
      unfold expandF
      congr 1
      split
      · rfl
      · split
        · rfl
        · rename_i hr hfr
          push_neg at hfr
          exact ih m (f + r) _ (by omega) (by omega) (by omega) (by omega)

/-- `components.Values` (src/component.go lines 162-197): expand every
component, deduplicate (the Go code collects values in a map) and sort
ascending (`sort.Ints`). -/
def Values (cs : List component) (max : Nat) : List Nat :=
  List.insertionSort (· ≤ ·) (cs.flatMap fun c => expand c.From c.To c.Repeat max).dedup

/-- The scan loop of `components.Next` (src/component.go lines 210-212):
index of the first element `≥ current`, or the length if none exists. -/
def firstGE : List Nat → Nat → Nat
  | [], _ => 0
  | x :: xs, current => if x < current then firstGE xs current + 1 else 0

/-- `components.Next` (src/component.go lines 203-217). Returns
`(next, diff, ok)`; `diff` is the Go `int` difference `val - current`,
embedded as `Int`.  The Go code binds `values := cs.Values(max)` once and
indexes it at `i % len(values)`; the embedding repeats the pure call. -/
def Next (cs : List component) (current max : Nat) : Nat × Int × Bool :=
  if (Values cs max).length = 0 then (0, 0, false)
  else
    ((Values cs max).getD (firstGE (Values cs max) current % (Values cs max).length) 0,
     ((Values cs max).getD (firstGE (Values cs max) current % (Values cs max).length) 0 : Int)
       - (current : Int),
     true)

/-- Validity of a component per the spec's data model (§3): fields are
non-negative (carried by `Nat`), and when `To` is set, `From < To`. -/
def component.Valid (c : component) : Prop := c.To = 0 ∨ c.From < c.To

/-! ### Weekday components (src/weekday_component.go) -/

structure weekdayComponent where
  From : Nat
  To : Nat
deriving DecidableEq, Repr

/-- `weekdayComponents.Values` (src/weekday_component.go lines 140-160):
like the component expansion but with fixed maximum 7 and no repeat. -/
def wdValues (cs : List weekdayComponent) : List Nat :=
  List.insertionSort (· ≤ ·) (cs.flatMap fun c => contrib c.From c.To 7).dedup

/-- `weekdayComponents.Contains` (src/weekday_component.go lines 162-169). -/
def wdContains (cs : List weekdayComponent) (day : Nat) : Bool :=
  (wdValues cs).contains day

/-! ### Calendar arithmetic, modelling the Go `time` package

The `time` package is outside the repository; these functions model
`time.Date` / `Day` / `Weekday` on the proleptic Gregorian calendar with a
fixed-offset timezone.  `daysFromCivil` maps a civil date with month in
`[1,12]` to its day number with day 0 = 1970-01-01; `civilFromDays` is the
inverse decomposition, defined by peeling whole March-based years and then
months so that validity of its output is provable by construction. -/

/-- The Gregorian leap-year predicate (as in Go's `isLeap`). -/
def Leap (y : Int) : Prop := y % 4 = 0 ∧ (y % 100 ≠ 0 ∨ y % 400 = 0)

instance (y : Int) : Decidable (Leap y) := by unfold Leap; infer_instance

/-- Number of days in calendar month `m` (1-12) of year `y`. -/
def monthLength (y : Int) (m : Nat) : Nat :=
  if m = 2 then (if Leap y then 29 else 28)
  else if m = 4 ∨ m = 6 ∨ m = 9 ∨ m = 11 then 30 else 31

/-- Day number (1970-01-01 = 0) of the civil date `(y, m, d)`, `m` in
`[1,12]`.  This is the standard era-decomposition formula, with Lean's
Euclidean `Int` division (which agrees with floored division for the
positive divisors used here). -/
def daysFromCivil (y m d : Int) : Int :=
  let yy := if m ≤ 2 then y - 1 else y
  let mp := if m ≤ 2 then m + 9 else m - 3
  let era := yy / 400
  let yoe := yy - 400 * era
  let doy := (153 * mp + 2) / 5 + d - 1
  let doe := 365 * yoe + yoe / 4 - yoe / 100 + doy
  146097 * era + doe - 719468

/-- Length of the March-based year starting in March of year
`400*era + yoe`; it contains the following February, which belongs to
calendar year `yoe + 1` (mod the 400-year era). -/
def marchYearLen (yoe : Nat) : Nat := if Leap ((yoe : Int) + 1) then 366 else 365

/-- Month lengths in March-based order:
Mar Apr May Jun Jul Aug Sep Oct Nov Dec Jan Feb. -/
def marchMonthLen (leapFeb : Bool) (mp : Nat) : Nat :=
  if mp = 11 then (if leapFeb then 29 else 28)
  else if mp = 1 ∨ mp = 3 ∨ mp = 6 ∨ mp = 8 then 30 else 31

/-- Days before March-month `mp` within a March-based year. -/
def marchBefore (mp : Nat) : Nat :=
  match mp with
  | 0 => 0 | 1 => 31 | 2 => 61 | 3 => 92 | 4 => 122 | 5 => 153
  | 6 => 184 | 7 => 214 | 8 => 245 | 9 => 275 | 10 => 306 | _ => 337

/-- Peel whole March-based years off a day count within an era. -/
def peelYear : Nat → Nat → Nat → Nat × Nat
  | 0, yoe, rem => (yoe, rem)
  | fuel+1, yoe, rem =>
    if rem < marchYearLen yoe then (yoe, rem)
    else peelYear fuel (yoe + 1) (rem - marchYearLen yoe)

/-- Peel whole March-based months off a day-of-year count. -/
def peelMonth (leapFeb : Bool) : Nat → Nat → Nat → Nat × Nat
  | 0, mp, rem => (mp, rem)
  | fuel+1, mp, rem =>
    if 11 ≤ mp ∨ rem < marchMonthLen leapFeb mp then (mp, rem)
    else peelMonth leapFeb fuel (mp + 1) (rem - marchMonthLen leapFeb mp)

/-- Civil date `(y, m, d)` of day number `z` (inverse of `daysFromCivil`). -/
def civilFromDays (z : Int) : Int × Nat × Nat :=
  let era := (z + 719468) / 146097
  let doe := ((z + 719468) % 146097).toNat
  let p := peelYear 500 0 doe
  let q := peelMonth (decide (Leap ((p.1 : Int) + 1))) 12 0 p.2
  ((400 * era + p.1 + (if 10 ≤ q.1 then 1 else 0) : Int),
   (if q.1 < 10 then q.1 + 3 else q.1 - 9), q.2 + 1)

/-- Day number of Go's `time.Date(y, mo, d, ...)`: months are first
normalised into years exactly as Go's `norm` does (Euclidean division by
12 for the 1-based month shifted to 0-based), then `d - 1` days are added
to the first of the month — day values outside the month's range simply
overflow or underflow arithmetically, as in Go. -/
def wallDays (y mo d : Int) : Int :=
  daysFromCivil (y + (mo - 1) / 12) ((mo - 1) % 12 + 1) 1 + (d - 1)

/-- `daysInMonth` as computed by the rollover engine
(src/unnamed/part_000 line 400): the `Day()` of
`time.Date(year, month+1, 0, ...)`, i.e. the length of (normalised)
month `month` of `year`, for an arbitrary non-negative month number. -/
def daysInMonth (y : Int) (mo : Nat) : Nat :=
  if mo % 12 = 0 then 31 else monthLength (y + mo / 12) (mo % 12)

/-- Go weekday of `time.Date(y, mo, d)` mapped as the engine does
(src/unnamed/part_000 lines 421-425): Monday = 1 .. Sunday = 7.
1970-01-01 (day 0) was a Thursday, and Go's `Weekday` numbers Sunday 0. -/
def goWeekday (y mo d : Int) : Nat :=
  (let w := (wallDays y mo d + 4) % 7
   if w = 0 then 7 else w).toNat

/-! ### The rollover engine (src/unnamed/part_000, `Expression.Next`) -/

/-- A civil date-time tuple, the working state of the rollover loop.  The
input instant is the tuple of the instant's components in the expression's
timezone (the fixed-offset model makes `d.In(e.timezone)` the identity). -/
structure DateTime where
  year : Nat
  month : Nat
  day : Nat
  hour : Nat
  minute : Nat
  second : Nat
deriving DecidableEq, Repr

/-- Absolute seconds of the wall-clock tuple `t` (fixed-offset timezone),
exactly Go's `time.Date(year, month, day, hour, minute, second, 0, loc)`:
out-of-range fields overflow arithmetically. -/
def wallSecs (t : DateTime) : Int :=
  86400 * wallDays t.year t.month t.day
    + 3600 * (t.hour : Int) + 60 * (t.minute : Int) + (t.second : Int)

/-- The expression structure (src/unnamed/part_000 lines 15-31).  The
timezone is represented by its name; `time.Local` is the name `Local`. -/
structure Expression where
  weekdays : List weekdayComponent
  years : List component
  months : List component
  days : List component
  hours : List component
  minutes : List component
  seconds : List component
  timezone : List Char
deriving DecidableEq, Repr

/-- `MaxYears` (src/unnamed/part_000 line 35). -/
def MaxYears : Nat := 2199

/-- Result of one pass of the rollover loop body. -/
inductive StepRes where
  | done (t : DateTime)
  | notFound
  | next (s : DateTime)
deriving DecidableEq, Repr

/-- Seconds stage of the loop body (src/unnamed/part_000 lines 466-476):
either wrap (`minute++`, `continue`) or reach the final `break`. -/
def stepSeconds (e : Expression) (year month day hour minute second : Nat) : StepRes :=
  let sr := Next e.seconds second 59
  if sr.2.2 = false then .notFound
  else if sr.2.1 < 0 then .next ⟨year, month, day, hour, minute + 1, sr.1⟩
  else .done ⟨year, month, day, hour, minute, sr.1⟩

/-- Minutes stage (lines 451-464): wrap carries into the hour, a forward
move resets the second. -/
def stepMinutes (e : Expression) (year month day hour minute second : Nat) : StepRes :=
  let mir := Next e.minutes minute 59
  if mir.2.2 = false then .notFound
  else if mir.2.1 < 0 then .next ⟨year, month, day, hour + 1, mir.1, 0⟩
  else stepSeconds e year month day hour mir.1 (if 0 < mir.2.1 then 0 else second)

/-- Hours stage (lines 434-449). -/
def stepHours (e : Expression) (year month day hour minute second : Nat) : StepRes :=
  let hr := Next e.hours hour 23
  if hr.2.2 = false then .notFound
  else if hr.2.1 < 0 then .next ⟨year, month, day + 1, hr.1, 0, 0⟩
  else stepMinutes e year month day hr.1
    (if 0 < hr.2.1 then 0 else minute) (if 0 < hr.2.1 then 0 else second)

/-- Weekday filter (lines 421-432): a mismatch advances the day. -/
def stepWeekday (e : Expression) (year month day hour minute second : Nat) : StepRes :=
  if wdContains e.weekdays (goWeekday year month day) = false then
    .next ⟨year, month, day + 1, 0, 0, 0⟩
  else stepHours e year month day hour minute second

/-- Days stage (lines 400-419), with `daysInMonth` of the current working
year and month as the maximum. -/
def stepDays (e : Expression) (year month day hour minute second : Nat) : StepRes :=
  let dr := Next e.days day (daysInMonth year month)
  if dr.2.2 = false then .notFound
  else if dr.2.1 < 0 then .next ⟨year, month + 1, dr.1, 0, 0, 0⟩
  else stepWeekday e year month dr.1
    (if 0 < dr.2.1 then 0 else hour) (if 0 < dr.2.1 then 0 else minute)
    (if 0 < dr.2.1 then 0 else second)

/-- Months stage (lines 379-398): wrap carries into the year. -/
def stepMonths (e : Expression) (year month day hour minute second : Nat) : StepRes :=
  let mr := Next e.months month 12
  if mr.2.2 = false then .notFound
  else if mr.2.1 < 0 then .next ⟨year + 1, mr.1, 1, 0, 0, 0⟩
  else stepDays e year mr.1
    (if 0 < mr.2.1 then 1 else day) (if 0 < mr.2.1 then 0 else hour)
    (if 0 < mr.2.1 then 0 else minute) (if 0 < mr.2.1 then 0 else second)

/-- One pass of `Expression.Next`'s loop body
(src/unnamed/part_000 lines 360-477), transcribed stage by stage:
`done` is reaching the final `break`, `notFound` is a `return` with
`ok = false`, and `next` is a `continue` carrying the updated state.
The years stage is lines 361-377; years never wrap. -/
def step (e : Expression) (s : DateTime) : StepRes :=
  let yr := Next e.years s.year MaxYears
  if yr.2.2 = false then .notFound
  else if yr.2.1 < 0 then .notFound
  else stepMonths e yr.1
    (if 0 < yr.2.1 then 1 else s.month) (if 0 < yr.2.1 then 1 else s.day)
    (if 0 < yr.2.1 then 0 else s.hour) (if 0 < yr.2.1 then 0 else s.minute)
    (if 0 < yr.2.1 then 0 else s.second)

/-- The working state seeded from the input instant
(src/unnamed/part_000 lines 333-341): the tuple of the instant with the
seconds pre-incremented by one. -/
def initState (d : DateTime) : DateTime :=
  ⟨d.year, d.month, d.day, d.hour, d.minute, d.second + 1⟩

/-- Iterating the loop body with fuel.  `none` means the fuel ran out;
`ceiling_sufficient` proves it never does with `ceiling e` fuel. -/
def run (e : Expression) : Nat → DateTime → Option (Option DateTime)
  | 0, _ => none
  | fuel+1, s =>
    match step e s with
    | .done t => some (some t)
    | .notFound => some none
    | .next s' => run e fuel s'

/-- Largest `From` among the components of a list. -/
def maxFroms (cs : List component) : Nat := cs.foldr (fun c a => Nat.max c.From a) 0

/-- Per-field bounds on the loop state at any `continue`: each field is at
most the largest member of the field's value set (which is at most the
field maximum plus the largest raw `From`), plus one for a single carry. -/
def YB (e : Expression) : Nat := MaxYears + maxFroms e.years
def MB (e : Expression) : Nat := 12 + maxFroms e.months
def DB (e : Expression) : Nat := 31 + maxFroms e.days
def HB (e : Expression) : Nat := 23 + maxFroms e.hours
def MinB (e : Expression) : Nat := 59 + maxFroms e.minutes
def SB (e : Expression) : Nat := 59 + maxFroms e.seconds

/-- The loop state reached by any `continue` lies in this box. -/
def InBox (e : Expression) (s : DateTime) : Prop :=
  s.year ≤ YB e + 1 ∧ s.month ≤ MB e + 1 ∧ s.day ≤ DB e + 1 ∧
    s.hour ≤ HB e + 1 ∧ s.minute ≤ MinB e + 1 ∧ s.second ≤ SB e

/-- Mixed-radix encoding of a box state; it strictly increases along the
loop's `continue`s, which bounds the number of passes. -/
def encode (e : Expression) (s : DateTime) : Nat :=
  ((((s.year * (MB e + 2) + s.month) * (DB e + 2) + s.day) * (HB e + 2) + s.hour)
      * (MinB e + 2) + s.minute) * (SB e + 1) + s.second

/-- Number of states in the box: `encode` of a box state is below this. -/
def boxSize (e : Expression) : Nat :=
  (YB e + 2) * (MB e + 2) * (DB e + 2) * (HB e + 2) * (MinB e + 2) * (SB e + 1)

/-- The safety ceiling: an upper bound (computed from the expression alone)
on the number of loop passes `Expression.Next` can make. -/
def ceiling (e : Expression) : Nat := boxSize e + 2

/-- `Expression.Next` (src/unnamed/part_000 lines 329-480): run the loop
from the seeded state; a `done` pass returns the composed instant
(`time.Date` of the final tuple, i.e. its absolute seconds in the
fixed-offset model), a not-found pass returns `none`.  The fuel `ceiling e`
provably never runs out (`ceiling_sufficient`). -/
def ExpNext (e : Expression) (d : DateTime) : Option Int :=
  match run e (ceiling e) (initState d) with
  | some (some t) => some (wallSecs t)
  | some none => none
  | none => none

/-- Strict lexicographic order on date-time tuples. -/
def lexLt (a b : DateTime) : Prop :=
  a.year < b.year ∨ (a.year = b.year ∧
    (a.month < b.month ∨ (a.month = b.month ∧
      (a.day < b.day ∨ (a.day = b.day ∧
        (a.hour < b.hour ∨ (a.hour = b.hour ∧
          (a.minute < b.minute ∨ (a.minute = b.minute ∧
            a.second < b.second)))))))))

/-- Reflexive lexicographic order on date-time tuples. -/
def lexLe (a b : DateTime) : Prop :=
  lexLt a b ∨ (a.year = b.year ∧ a.month = b.month ∧ a.day = b.day ∧
    a.hour = b.hour ∧ a.minute = b.minute ∧ a.second = b.second)

/-- A civil tuple within range (as produced by decomposing a real instant);
the second is allowed to reach 60 so that the seeded state
(`second + 1`) is still in range. -/
def SemiValid (t : DateTime) : Prop :=
  1 ≤ t.month ∧ t.month ≤ 12 ∧ 1 ≤ t.day ∧
    t.day ≤ monthLength (t.year : Int) t.month ∧
    t.hour ≤ 23 ∧ t.minute ≤ 59 ∧ t.second ≤ 60

/-- A real civil instant, as obtained from decomposing a `time.Time` in a
fixed-offset timezone. -/
def ValidCivil (t : DateTime) : Prop :=
  1 ≤ t.month ∧ t.month ≤ 12 ∧ 1 ≤ t.day ∧
    t.day ≤ monthLength (t.year : Int) t.month ∧
    t.hour ≤ 23 ∧ t.minute ≤ 59 ∧ t.second ≤ 59

instance (t : DateTime) : Decidable (ValidCivil t) := by
  unfold ValidCivil; infer_instance

/-- Day number of the first day of month index `mi` (counting months from
the start of year 0, i.e. `mi = 12*y + (m-1)` for calendar month `m` of
year `y`). -/
def monthStartIdx (mi : Int) : Int := daysFromCivil (mi / 12) (mi % 12 + 1) 1

/-- The expression parsed from `"*-0-* 0:0:0 UTC"`: a month value of zero
is accepted by the parser and drives `time.Date`'s backward normalisation. -/
def expMonthZero : Expression :=
  ⟨[⟨1, 7⟩], [⟨1970, 2199, 0⟩], [⟨0, 0, 0⟩], [⟨1, 31, 0⟩],
    [⟨0, 0, 0⟩], [⟨0, 0, 0⟩], [⟨0, 0, 0⟩], ("UTC").toList⟩

/-! ### String primitives for the parser and renderer

Go strings are embedded as `List Char`.  `strings.Split`, `strings.Fields`,
`strconv.ParseInt` and the `fmt` numeric formatting used by the marshalers
are modelled below. -/

abbrev Str := List Char

/-- Decimal digits of `n` (fuel-based so it kernel-reduces);
`natDigits n` with fuel `n + 1` always has enough fuel. -/
def natDigitsF : Nat → Nat → Str
  | 0, _ => []
  | fuel+1, n =>
    if n < 10 then [Char.ofNat (48 + n)]
    else natDigitsF fuel (n / 10) ++ [Char.ofNat (48 + n % 10)]

/-- Decimal rendering of a natural number (`fmt` `%d` for non-negative values). -/
def natDigits (n : Nat) : Str := natDigitsF (n + 1) n

/-- Two-digit zero-padded rendering (`fmt` `%02d` for non-negative values,
src/component.go lines 106-109). -/
def pad2 (n : Nat) : Str := if n < 10 then '0' :: natDigits n else natDigits n

/-- Split a string at every character satisfying `p`, keeping empty pieces
(the common core of `strings.Split` on a one-character separator and of
`strings.Fields`). -/
def splitPred (p : Char → Bool) : Str → List Str
  | [] => [[]]
  | x :: xs =>
    if p x then [] :: splitPred p xs
    else
      match splitPred p xs with
      | r :: rs => (x :: r) :: rs
      | [] => [[x]]

/-- `strings.Split` on a single-character separator. -/
def splitChar (c : Char) (s : Str) : List Str := splitPred (fun x => x == c) s

/-- `unicode.IsSpace` restricted to the Latin-1 range: space, `\t`, `\n`,
`\v`, `\f`, `\r`, NEL and NBSP. -/
def isGoSpace (c : Char) : Bool :=
  c == ' ' || c == '\t' || c == '\n' || c == '\r' ||
    c.toNat == 11 || c.toNat == 12 || c.toNat == 133 || c.toNat == 160

/-- `strings.Fields` (src/unnamed/part_000 line 82): the maximal runs of
non-whitespace characters, i.e. the non-empty pieces of splitting at every
whitespace character. -/
def goFields (s : Str) : List Str := (splitPred isGoSpace s).filter (· ≠ [])

/-- `strings.Split(s, "..")` (src/component.go line 63): split at each
leftmost non-overlapping occurrence of two consecutive dots. -/
def splitDots : Str → List Str
  | [] => [[]]
  | [x] => [[x]]
  | x :: y :: rest =>
    if x = '.' ∧ y = '.' then [] :: splitDots rest
    else
      match splitDots (y :: rest) with
      | r :: rs => (x :: r) :: rs
      | [] => [[x]]

/-- `strings.Contains(s, "..")` (src/component.go line 125). -/
def hasDots : Str → Bool
  | [] => false
  | [_] => false
  | x :: y :: rest => (x == '.' && y == '.') || hasDots (y :: rest)

/-- `strings.Contains` for a one-character needle. -/
def hasChar (c : Char) (s : Str) : Bool := s.any (fun x => x == c)

/-- `strings.ContainsAny(s, "-:")` (src/unnamed/part_000 line 101). -/
def hasDashColon (s : Str) : Bool := s.any (fun x => x == '-' || x == ':')

/-- Value of a digit string under the usual left fold. -/
def digitsVal (ds : Str) : Nat := ds.foldl (fun a c => a * 10 + (c.toNat - 48)) 0

/-- Decimal digit test (`'0' ≤ c ∧ c ≤ '9'`). -/
def isDigitChar (c : Char) : Bool := 48 ≤ c.toNat && c.toNat ≤ 57

/-- Digits part of `strconv.ParseInt`: a non-empty all-digit string. -/
def parseDigits (ds : Str) : Option Nat :=
  if ds = [] then none
  else if ds.all isDigitChar then some (digitsVal ds) else none

/-- `strconv.ParseInt(s, 10, 64)` (src/component.go line 30): an optional
sign followed by decimal digits, rejecting values outside the signed
64-bit range. -/
def parseGoInt (s : Str) : Option Int :=
  match s with
  | [] => none
  | c :: rest =>
    if c = '-' then
      match parseDigits rest with
      | some n => if (n : Int) ≤ 2 ^ 63 then some (-(n : Int)) else none
      | none => none
    else if c = '+' then
      match parseDigits rest with
      | some n => if (n : Int) < 2 ^ 63 then some (n : Int) else none
      | none => none
    else
      match parseDigits s with
      | some n => if (n : Int) < 2 ^ 63 then some (n : Int) else none
      | none => none

/-- `bytes.TrimSpace` (src/schedule.go line 48): strip whitespace from both
ends. -/
def trimSpace (s : Str) : Str :=
  ((s.dropWhile isGoSpace).reverse.dropWhile isGoSpace).reverse

/-- `strings.Join` / `bytes.Join`: concatenate the pieces with the
separator between consecutive pieces. -/
def joinSep (sep : Str) : List Str → Str
  | [] => []
  | [x] => x
  | x :: y :: rest => x ++ sep ++ joinSep sep (y :: rest)

/-! ### Parsing components (src/component.go, src/weekday_component.go) -/

/-- `parseValue` (src/component.go lines 22-51): an optional `/repeat`
suffix is cut at the first slash; the value and (when a slash is present)
the repeat must parse as non-negative integers. -/
def parseValue (raw : Str) : Option component :=
  match splitChar '/' raw with
  | [] => none
  | [v] =>
    match parseGoInt v with
    | none => none
    | some n => if n < 0 then none else some ⟨n.toNat, 0, 0⟩
  | v :: rest =>
    match parseGoInt v with
    | none => none
    | some n =>
      if n < 0 then none
      else
        match parseGoInt (joinSep ['/'] rest) with
        | none => none
        | some r => if r < 0 then none else some ⟨n.toNat, 0, r.toNat⟩

/-- `parseRange` (src/component.go lines 55-100): cut the optional repeat
at the first slash, split the rest at `".."` into exactly two bounds, and
require `From < To`. -/
def parseRange (raw : Str) : Option component :=
  match splitChar '/' raw with
  | [] => none
  | core :: rest =>
    match splitDots core with
    | [a, b] =>
      match parseGoInt a with
      | none => none
      | some lo =>
        if lo < 0 then none
        else
          match parseGoInt b with
          | none => none
          | some hi =>
            if hi < 0 then none
            else if hi ≤ lo then none
            else
              match rest with
              | [] => some ⟨lo.toNat, hi.toNat, 0⟩
              | _ :: _ =>
                match parseGoInt (joinSep ['/'] rest) with
                | none => none
                | some r =>
                  if r < 0 then none else some ⟨lo.toNat, hi.toNat, r.toNat⟩
    | _ => none

/-- The loop of `parseComponents` (src/component.go lines 124-139): each
comma chunk goes through `parseRange` when it contains `".."` and through
`parseValue` otherwise; the first error aborts. -/
def parseCompList : List Str → Option (List component)
  | [] => some []
  | chunk :: rest =>
    match (if hasDots chunk then parseRange chunk else parseValue chunk) with
    | none => none
    | some c =>
      match parseCompList rest with
      | none => none
      | some cs => some (c :: cs)

/-- `parseComponents` (src/component.go lines 123-142). -/
def parseComponents (raw : Str) : Option (List component) :=
  parseCompList (splitChar ',' raw)

/-- The `weekdaysValues` table (src/weekday_component.go lines 18-33),
applied to the lowercased input as in `parseWeekdayValue`. -/
def weekdayNum (s : Str) : Option Nat :=
  if s.map Char.toLower = ("monday").toList ∨ s.map Char.toLower = ("mon").toList then some 1
  else if s.map Char.toLower = ("tuesday").toList ∨ s.map Char.toLower = ("tue").toList then some 2
  else if s.map Char.toLower = ("wednesday").toList ∨ s.map Char.toLower = ("wed").toList then some 3
  else if s.map Char.toLower = ("thursday").toList ∨ s.map Char.toLower = ("thu").toList then some 4
  else if s.map Char.toLower = ("friday").toList ∨ s.map Char.toLower = ("fri").toList then some 5
  else if s.map Char.toLower = ("saturday").toList ∨ s.map Char.toLower = ("sat").toList then some 6
  else if s.map Char.toLower = ("sunday").toList ∨ s.map Char.toLower = ("sun").toList then some 7
  else none

/-- The `weekdaysStrings` table (src/weekday_component.go lines 36-44);
a missing key yields the empty string (Go map zero value). -/
def weekdayName (n : Nat) : Str :=
  if n = 1 then ("Mon").toList
  else if n = 2 then ("Tue").toList
  else if n = 3 then ("Wed").toList
  else if n = 4 then ("Thu").toList
  else if n = 5 then ("Fri").toList
  else if n = 6 then ("Sat").toList
  else if n = 7 then ("Sun").toList
  else []

/-- `parseWeekdayValue` (src/weekday_component.go lines 48-56). -/
def parseWeekdayValue (raw : Str) : Option weekdayComponent :=
  match weekdayNum raw with
  | none => none
  | some v => some ⟨v, 0⟩

/-- `parseWeekdayRange` (src/weekday_component.go lines 60-83). -/
def parseWeekdayRange (raw : Str) : Option weekdayComponent :=
  match splitDots raw with
  | [a, b] =>
    match weekdayNum a with
    | none => none
    | some lo =>
      match weekdayNum b with
      | none => none
      | some hi => if hi ≤ lo then none else some ⟨lo, hi⟩
  | _ => none

/-- The loop of `parseWeekdayComponents`
(src/weekday_component.go lines 102-121). -/
def parseWdList : List Str → Option (List weekdayComponent)
  | [] => some []
  | chunk :: rest =>
    match (if hasDots chunk then parseWeekdayRange chunk else parseWeekdayValue chunk) with
    | none => none
    | some c =>
      match parseWdList rest with
      | none => none
      | some cs => some (c :: cs)

/-- `parseWeekdayComponents` (src/weekday_component.go lines 102-121). -/
def parseWeekdayComponents (raw : Str) : Option (List weekdayComponent) :=
  parseWdList (splitChar ',' raw)

/-! ### Parsing and rendering expressions (src/unnamed/part_000) -/

/-- Modelled from the spec: `time.LoadLocation`
(src/unnamed/part_000 line 203) resolves a timezone name through the
external IANA database, which is not part of the repository; it is
modelled as a fixed table of known names, each resolving to the location
carrying that same name (as `LoadLocation` does, with `"Local"` giving the
process-local zone whose name is `"Local"`). -/
def loadLocation (s : Str) : Option Str :=
  if s = ("UTC").toList ∨ s = ("Local").toList ∨ s = ("Europe/Paris").toList ∨
      s = ("America/New_York").toList ∨ s = ("Zulu").toList then
    some s
  else none

/-- `allWeekdays` (src/unnamed/part_000 line 41). -/
def allWeekdays : List weekdayComponent := [⟨1, 7⟩]
/-- `allYears` (line 42). -/
def allYears : List component := [⟨1970, 2199, 0⟩]
/-- `allMonths` (line 43). -/
def allMonths : List component := [⟨1, 12, 0⟩]
/-- `allDays` (line 44). -/
def allDays : List component := [⟨1, 31, 0⟩]
/-- `allHours` (line 45). -/
def allHours : List component := [⟨0, 23, 0⟩]
/-- `allMinutes` (line 46). -/
def allMinutes : List component := [⟨0, 59, 0⟩]
/-- `allSeconds` (line 47). -/
def allSeconds : List component := [⟨0, 59, 0⟩]

/-- The name of `time.Local`, the default timezone
(src/unnamed/part_000 line 59). -/
def localName : Str := ("Local").toList

/-- The default expression `Parse` starts from
(src/unnamed/part_000 lines 71-80): full ranges for the date fields, the
single value 0 for the time fields, local timezone. -/
def defaultExpression : Expression :=
  ⟨[⟨1, 7⟩], [⟨1970, 2199, 0⟩], [⟨1, 12, 0⟩], [⟨1, 31, 0⟩],
    [⟨0, 0, 0⟩], [⟨0, 0, 0⟩], [⟨0, 0, 0⟩], localName⟩

/-- Weekday stage of `Parse` (src/unnamed/part_000 lines 101-111): when
the first chunk has neither a dash nor a colon it must be weekdays and is
consumed; otherwise the chunk list is left untouched. -/
def parseWdStage (e : Expression) (chunks : List Str) : Option (Expression × List Str) :=
  match chunks with
  | [] => some (e, [])
  | c :: rest =>
    if hasDashColon c = false then
      match parseWeekdayComponents c with
      | none => none
      | some w => some ({ e with weekdays := w }, rest)
    else some (e, c :: rest)

/-- Date stage of `Parse` (src/unnamed/part_000 lines 114-152): a chunk
containing a dash is split into at most three parts (a missing year
becomes `"*"`); a literal `"*"` part keeps the default field value. -/
def parseDateStage (e : Expression) (chunks : List Str) : Option (Expression × List Str) :=
  match chunks with
  | [] => some (e, [])
  | c :: rest =>
    if hasChar '-' c then
      if 3 < (splitChar '-' c).length then none
      else
        match (if (splitChar '-' c).length = 2 then ['*'] :: splitChar '-' c
               else splitChar '-' c) with
        | [py, pm, pd] =>
          match (if py = ['*'] then some e.years else parseComponents py) with
          | none => none
          | some ys =>
            match (if pm = ['*'] then some e.months else parseComponents pm) with
            | none => none
            | some ms =>
              match (if pd = ['*'] then some e.days else parseComponents pd) with
              | none => none
              | some ds => some ({ e with years := ys, months := ms, days := ds }, rest)
        | _ => none
    else some (e, c :: rest)

/-- Time stage of `Parse` (src/unnamed/part_000 lines 155-198): a chunk
containing a colon is split into at most three parts (missing seconds
become the literal `"00"`); a `"*"` part selects the full range. -/
def parseTimeStage (e : Expression) (chunks : List Str) : Option (Expression × List Str) :=
  match chunks with
  | [] => some (e, [])
  | c :: rest =>
    if hasChar ':' c then
      if 3 < (splitChar ':' c).length then none
      else
        match (if (splitChar ':' c).length = 2 then splitChar ':' c ++ [[ '0', '0' ]]
               else splitChar ':' c) with
        | [ph, pm, ps] =>
          match (if ph = ['*'] then some allHours else parseComponents ph) with
          | none => none
          | some hs =>
            match (if pm = ['*'] then some allMinutes else parseComponents pm) with
            | none => none
            | some ms =>
              match (if ps = ['*'] then some allSeconds else parseComponents ps) with
              | none => none
              | some ss => some ({ e with hours := hs, minutes := ms, seconds := ss }, rest)
        | _ => none
    else some (e, c :: rest)

/-- Timezone stage of `Parse` (src/unnamed/part_000 lines 202-214): a
remaining chunk must be a loadable timezone, and nothing may follow it. -/
def parseTZStage (e : Expression) (chunks : List Str) : Option Expression :=
  match chunks with
  | [] => some e
  | c :: rest =>
    match loadLocation c with
    | none => none
    | some tz => if rest = [] then some { e with timezone := tz } else none

/-- `Parse` (src/unnamed/part_000 lines 69-217): split into whitespace
fields (1 to 4 of them), then run the four stages in order. -/
def ParseE (raw : Str) : Option Expression :=
  if (goFields raw).length = 0 then none
  else if 4 < (goFields raw).length then none
  else
    match parseWdStage defaultExpression (goFields raw) with
    | none => none
    | some (e₁, chunks₁) =>
      match parseDateStage e₁ chunks₁ with
      | none => none
      | some (e₂, chunks₂) =>
        match parseTimeStage e₂ chunks₂ with
        | none => none
        | some (e₃, chunks₃) => parseTZStage e₃ chunks₃

/-- `component.MarshalText` (src/component.go lines 103-117): zero-padded
`From`, `..To` when `To` is set, `/Repeat` when `Repeat` is set. -/
def renderComponent (c : component) : Str :=
  pad2 c.From ++ (if c.To = 0 then [] else '.' :: '.' :: pad2 c.To)
    ++ (if c.Repeat = 0 then [] else '/' :: natDigits c.Repeat)

/-- `components.MarshalText` (src/component.go lines 146-153): the
comma-joined member renderings. -/
def renderComponents (cs : List component) : Str :=
  joinSep [','] (cs.map renderComponent)

/-- `weekdayComponent.MarshalText` (src/weekday_component.go lines 86-96). -/
def renderWeekdayComponent (c : weekdayComponent) : Str :=
  weekdayName c.From ++ (if c.To = 0 then [] else '.' :: '.' :: weekdayName c.To)

/-- `weekdayComponents.MarshalText` (src/weekday_component.go lines 125-132). -/
def renderWeekdays (cs : List weekdayComponent) : Str :=
  joinSep [','] (cs.map renderWeekdayComponent)

/-- The date part written by `Expression.MarshalText`
(src/unnamed/part_000 lines 246-265): each field collapses to `"*"`
exactly when it equals the full range. -/
def renderDate (e : Expression) : Str :=
  (if e.years = allYears then ['*'] else renderComponents e.years)
    ++ '-' :: (if e.months = allMonths then ['*'] else renderComponents e.months)
    ++ '-' :: (if e.days = allDays then ['*'] else renderComponents e.days)

/-- The time part written by `Expression.MarshalText`
(src/unnamed/part_000 lines 267-285). -/
def renderTime (e : Expression) : Str :=
  (if e.hours = allHours then ['*'] else renderComponents e.hours)
    ++ ':' :: (if e.minutes = allMinutes then ['*'] else renderComponents e.minutes)
    ++ ':' :: (if e.seconds = allSeconds then ['*'] else renderComponents e.seconds)

/-- The space-separated chunks written by `Expression.MarshalText`
(src/unnamed/part_000 lines 237-293): the weekday part only when it
differs from the full range, the date and time parts always, the timezone
name only when it is not the local zone. -/
def renderChunks (e : Expression) : List Str :=
  (if e.weekdays = allWeekdays then [] else [renderWeekdays e.weekdays])
    ++ [renderDate e, renderTime e]
    ++ (if e.timezone = localName then [] else [e.timezone])

/-- `Expression.MarshalText` (src/unnamed/part_000 lines 237-293). -/
def renderE (e : Expression) : Str := joinSep [' '] (renderChunks e)

/-! ### Schedules (src/schedule.go) -/

/-- The loop of `ParseSchedule` (src/schedule.go lines 17-25): parse every
line, aborting at the first error. -/
def parseExpList : List Str → Option (List Expression)
  | [] => some []
  | l :: ls =>
    match ParseE l with
    | none => none
    | some e =>
      match parseExpList ls with
      | none => none
      | some es => some (e :: es)

/-- `ParseSchedule` (src/schedule.go lines 16-27): split the raw text at
every newline and parse each piece. -/
def ParseScheduleE (raw : Str) : Option (List Expression) :=
  parseExpList (splitChar '\n' raw)

/-- `Schedule.MarshalText` (src/schedule.go lines 66-78): the member
renderings joined with `"\""` — a double quote, not a newline. -/
def scheduleMarshal (s : List Expression) : Str :=
  joinSep ['"'] (s.map renderE)

/-- The loop of `Schedule.UnmarshalText` (src/schedule.go lines 46-59):
lines whose trimmed form is empty are skipped, the rest must parse. -/
def unmarshalLines : List Str → Option (List Expression)
  | [] => some []
  | l :: ls =>
    if trimSpace l = [] then unmarshalLines ls
    else
      match ParseE l with
      | none => none
      | some e =>
        match unmarshalLines ls with
        | none => none
        | some es => some (e :: es)

/-- `Schedule.UnmarshalText` (src/schedule.go lines 43-63):
`bytes.FieldsFunc` with separator `'\n'` keeps the non-empty pieces of the
newline split; blank pieces are then skipped by the loop. -/
def scheduleUnmarshal (text : Str) : Option (List Expression) :=
  unmarshalLines ((splitChar '\n' text).filter (· ≠ []))

/-- The expression parsed from `"Mon 2006-01-02 15:04:05 Europe/Paris"`. -/
def expParis : Expression :=
  ⟨[⟨1, 0⟩], [⟨2006, 0, 0⟩], [⟨1, 0, 0⟩], [⟨2, 0, 0⟩],
    [⟨15, 0, 0⟩], [⟨4, 0, 0⟩], [⟨5, 0, 0⟩], ("Europe/Paris").toList⟩

/-- The expression parsed from `"2005-*-* 00:00:00 UTC"`: the single year
2005 with full month and day ranges, midnight, UTC. -/
def exp2005 : Expression :=
  ⟨[⟨1, 7⟩], [⟨2005, 0, 0⟩], [⟨1, 12, 0⟩], [⟨1, 31, 0⟩],
    [⟨0, 0, 0⟩], [⟨0, 0, 0⟩], [⟨0, 0, 0⟩], ("UTC").toList⟩

/-- Shape invariant established by `parseValue` / `parseRange`: all three
fields fit in an `int64`, and a set `To` is strictly above `From`. -/
def GoodComp (c : component) : Prop :=
  c.From < 2 ^ 63 ∧ c.To < 2 ^ 63 ∧ c.Repeat < 2 ^ 63 ∧ (c.To = 0 ∨ c.From < c.To)

/-- Shape invariant established by `parseWeekdayValue` /
`parseWeekdayRange`: values come from the weekday table (1 to 7) and a
set `To` is strictly above `From`. -/
def GoodWd (w : weekdayComponent) : Prop :=
  1 ≤ w.From ∧ w.From ≤ 7 ∧ (w.To = 0 ∨ (w.From < w.To ∧ w.To ≤ 7))

/-- A non-empty list of well-shaped components. -/
def GoodList (cs : List component) : Prop := cs ≠ [] ∧ ∀ c ∈ cs, GoodComp c

/-- Shape invariant established by `Parse` on every expression it
returns: every field is a non-empty list of well-shaped components, and
the timezone is a loadable name. -/
def GoodExp (e : Expression) : Prop :=
  (e.weekdays ≠ [] ∧ ∀ w ∈ e.weekdays, GoodWd w) ∧
    GoodList e.years ∧ GoodList e.months ∧ GoodList e.days ∧
    GoodList e.hours ∧ GoodList e.minutes ∧ GoodList e.seconds ∧
    loadLocation e.timezone = some e.timezone

instance (c : component) : Decidable (GoodComp c) := by
  unfold GoodComp; infer_instance

instance (w : weekdayComponent) : Decidable (GoodWd w) := by
  unfold GoodWd; infer_instance

instance (cs : List component) : Decidable (GoodList cs) := by
  unfold GoodList; infer_instance

/-! ### Basic facts about `Values` -/

theorem mem_expandF (fuel f t r max v : Nat) (hv : v ∈ expandF fuel f t r max) :
    v ≤ max ∨ (t = 0 ∧ v = f) := by
  induction fuel generalizing f t with
  | zero => simp [expandF] at hv
  | succ n ih =>
    unfold expandF at hv
    rw [List.mem_append] at hv
    rcases hv with hv | hv
    · unfold contrib at hv
      split at hv
      · simp at hv
        right
        exact ⟨‹t = 0›, hv⟩
      · left
        rw [List.mem_range'] at hv
        omega
    · split at hv
      · simp at hv
      · split at hv
        · simp at hv
        · rename_i hr hfr
          push_neg at hfr
          rcases ih (f + r) _ hv with h | h
          · exact Or.inl h
          · exact Or.inl (by omega)

theorem ge_of_mem_expandF (fuel f t r max v : Nat) (hv : v ∈ expandF fuel f t r max) :
    f ≤ v := by
  induction fuel generalizing f t with
  | zero => simp [expandF] at hv
  | succ n ih =>
    unfold expandF at hv
    rw [List.mem_append] at hv
    rcases hv with hv | hv
    · unfold contrib at hv
      split at hv
      · simp at hv
        omega
      · rw [List.mem_range'] at hv
        omega
    · split at hv
      · simp at hv
      · split at hv
        · simp at hv
        · have := ih (f + r) _ hv
          omega

theorem mem_Values_iff (cs : List component) (max v : Nat) :
    v ∈ Values cs max ↔ ∃ c ∈ cs, v ∈ expand c.From c.To c.Repeat max := by
  unfold Values
  rw [List.Perm.mem_iff (List.perm_insertionSort _ _), List.mem_dedup, List.mem_flatMap]

theorem Values_sorted_lt (cs : List component) (max : Nat) :
    (Values cs max).Sorted (· < ·) := by
  have hs : (Values cs max).Sorted (· ≤ ·) := List.sorted_insertionSort _ _
  have hn : (Values cs max).Nodup :=
    ((List.perm_insertionSort _ _).nodup_iff).mpr (List.nodup_dedup _)
  exact hs.lt_of_le hn

/-- Every element of `Values` is bounded by `max`, except possibly the
original `From` of a component with unset `To`. -/
theorem mem_Values_bound (cs : List component) (max v : Nat) (hv : v ∈ Values cs max) :
    v ≤ max ∨ ∃ c ∈ cs, c.To = 0 ∧ v = c.From := by
  rw [mem_Values_iff] at hv
  obtain ⟨c, hc, hvc⟩ := hv
  rcases mem_expandF _ _ _ _ _ _ hvc with h | h
  · exact Or.inl h
  · exact Or.inr ⟨c, hc, h⟩

theorem Values_nodup (cs : List component) (max : Nat) : (Values cs max).Nodup :=
  ((List.perm_insertionSort _ _).nodup_iff).mpr (List.nodup_dedup _)

/-! ### Facts about `firstGE` and `Next` -/

theorem firstGE_le_length (l : List Nat) (c : Nat) : firstGE l c ≤ l.length := by
  induction l with
  | nil => simp [firstGE]
  | cons x xs ih =>
    simp only [firstGE, List.length_cons]
    split
    · omega
    · omega

theorem firstGE_eq_length_iff (l : List Nat) (c : Nat) :
    firstGE l c = l.length ↔ ∀ v ∈ l, v < c := by
  induction l with
  | nil => simp [firstGE]
  | cons x xs ih =>
    simp only [firstGE, List.length_cons, List.mem_cons]
    split
    · rename_i hx
      constructor
      · intro h v hv
        rcases hv with hv | hv
        · omega
        · exact ih.mp (by omega) v hv
      · intro h
        have := ih.mpr (fun v hv => h v (Or.inr hv))
        omega
    · rename_i hx
      constructor
      · intro h
        have := firstGE_le_length xs c
        omega
      · intro h
        exact absurd (h x (Or.inl rfl)) hx

theorem firstGE_lt_of_lt (l : List Nat) (c : Nat) :
    ∀ j, j < firstGE l c → l.getD j 0 < c := by
  induction l with
  | nil => simp [firstGE]
  | cons x xs ih =>
    intro j hlt
    simp only [firstGE] at hlt
    split at hlt
    · match j with
      | 0 => simpa using ‹x < c›
      | j'+1 =>
        simp only [List.getD_cons_succ]
        exact ih j' (by omega)
    · omega

theorem firstGE_ge (l : List Nat) (c : Nat) (h : firstGE l c < l.length) :
    c ≤ l.getD (firstGE l c) 0 := by
  induction l with
  | nil => simp [firstGE] at h
  | cons x xs ih =>
    by_cases hx : x < c
    · have hfg : firstGE (x :: xs) c = firstGE xs c + 1 := by
        simp only [firstGE, if_pos hx]
      rw [hfg] at h ⊢
      rw [List.getD_cons_succ]
      exact ih (by simpa using h)
    · have hfg : firstGE (x :: xs) c = 0 := by
        simp only [firstGE, if_neg hx]
      rw [hfg]
      rw [List.getD_cons_zero]
      omega

theorem sorted_getD_le (l : List Nat) (hs : l.Sorted (· < ·)) (i j : Nat)
    (hij : i ≤ j) (hj : j < l.length) : l.getD i 0 ≤ l.getD j 0 := by
  have hi : i < l.length := by omega
  rw [List.getD_eq_getElem _ _ hi, List.getD_eq_getElem _ _ hj]
  rcases Nat.eq_or_lt_of_le hij with he | hlt
  · subst he; exact le_of_eq rfl
  · exact le_of_lt (hs.rel_get_of_lt (a := ⟨i, hi⟩) (b := ⟨j, hj⟩) (by simpa using hlt))

theorem mem_getD (l : List Nat) (v : Nat) (hv : v ∈ l) :
    ∃ j, j < l.length ∧ l.getD j 0 = v := by
  obtain ⟨⟨j, hj⟩, hget⟩ := List.mem_iff_get.mp hv
  exact ⟨j, hj, by rw [List.getD_eq_getElem _ _ hj, ← hget]; simp⟩

theorem Next_not_ok_iff (cs : List component) (current max : Nat) :
    (Next cs current max).2.2 = false ↔ Values cs max = [] := by
  unfold Next
  split
  · rename_i h
    rw [List.length_eq_zero] at h
    simpa using h
  · rename_i h
    rw [List.length_eq_zero] at h
    simpa using h

theorem Next_val_eq (cs : List component) (current max : Nat)
    (h : Values cs max ≠ []) :
    (Next cs current max).1
      = (Values cs max).getD
          (firstGE (Values cs max) current % (Values cs max).length) 0 ∧
    (Next cs current max).2.1 = ((Next cs current max).1 : Int) - (current : Int) ∧
    (Next cs current max).2.2 = true := by
  unfold Next
  split
  · rename_i hlen
    rw [List.length_eq_zero] at hlen
    exact absurd hlen h
  · exact ⟨rfl, rfl, rfl⟩

theorem Next_mem (cs : List component) (current max : Nat)
    (h : Values cs max ≠ []) :
    (Next cs current max).1 ∈ Values cs max := by
  obtain ⟨hval, _, _⟩ := Next_val_eq cs current max h
  have hlen : 0 < (Values cs max).length := List.length_pos.mpr h
  have hidx : firstGE (Values cs max) current % (Values cs max).length
      < (Values cs max).length := Nat.mod_lt _ hlen
  rw [hval, List.getD_eq_getElem _ _ hidx]
  exact List.getElem_mem _

/-- When some value `≥ current` exists, `Next` returns the least such value. -/
theorem Next_no_wrap (cs : List component) (current max : Nat)
    (w : Nat) (hw : w ∈ Values cs max) (hcw : current ≤ w) :
    current ≤ (Next cs current max).1 ∧
      (∀ v ∈ Values cs max, current ≤ v → (Next cs current max).1 ≤ v) ∧
      0 ≤ (Next cs current max).2.1 := by
  have hne : Values cs max ≠ [] := by
    intro hc; rw [hc] at hw; simp at hw
  obtain ⟨hval, hdiff, _⟩ := Next_val_eq cs current max hne
  have hlen : 0 < (Values cs max).length := List.length_pos.mpr hne
  have hsorted := Values_sorted_lt cs max
  have hfg : firstGE (Values cs max) current < (Values cs max).length := by
    rcases Nat.lt_or_ge (firstGE (Values cs max) current) (Values cs max).length with h | h
    · exact h
    · have heq : firstGE (Values cs max) current = (Values cs max).length :=
        le_antisymm (firstGE_le_length _ current) h
      rw [firstGE_eq_length_iff] at heq
      exact absurd hcw (by have := heq w hw; omega)
  have hmod : firstGE (Values cs max) current % (Values cs max).length
      = firstGE (Values cs max) current := Nat.mod_eq_of_lt hfg
  rw [hmod] at hval
  have hcur : current ≤ (Next cs current max).1 := by
    rw [hval]; exact firstGE_ge _ current hfg
  refine ⟨hcur, ?_, by omega⟩
  intro v hv hcv
  obtain ⟨j, hj, hget⟩ := mem_getD _ v hv
  have hjge : firstGE (Values cs max) current ≤ j := by
    by_contra hcon
    push_neg at hcon
    have := firstGE_lt_of_lt (Values cs max) current j hcon
    omega
  rw [hval, ← hget]
  exact sorted_getD_le _ hsorted _ _ hjge hj

/-- When every value is `< current`, `Next` wraps to the least value overall
and the returned diff is negative. -/
theorem Next_wrap (cs : List component) (current max : Nat)
    (hne : Values cs max ≠ []) (hall : ∀ v ∈ Values cs max, v < current) :
    (∀ v ∈ Values cs max, (Next cs current max).1 ≤ v) ∧
      (Next cs current max).2.1 < 0 := by
  obtain ⟨hval, hdiff, _⟩ := Next_val_eq cs current max hne
  have hlen : 0 < (Values cs max).length := List.length_pos.mpr hne
  have hsorted := Values_sorted_lt cs max
  have hfg : firstGE (Values cs max) current = (Values cs max).length :=
    (firstGE_eq_length_iff _ current).mpr hall
  rw [hfg, Nat.mod_self] at hval
  constructor
  · intro v hv
    obtain ⟨j, hj, hget⟩ := mem_getD _ v hv
    rw [hval, ← hget]
    exact sorted_getD_le _ hsorted _ _ (Nat.zero_le j) hj
  · have hmem : (Next cs current max).1 ∈ Values cs max := Next_mem cs current max hne
    have := hall _ hmem
    omega

/-! ### Claim C1 -/

/-- Claim C1 counterexample: the component `{From := 5}` is valid, yet
`Values [⟨5,0,0⟩] 3 = [5]` contains the element `5 > 3`: a component
without repeat whose `To` is unset contributes `From` even when
`From > max`, so "every element ≤ max" fails. -/
theorem c1_counterexample :
    component.Valid ⟨5, 0, 0⟩ ∧ Values [⟨5, 0, 0⟩] 3 = [5] ∧
      ¬ (∀ v ∈ Values [⟨5, 0, 0⟩] 3, v ≤ 3) := by
  refine ⟨Or.inl rfl, by decide, ?_⟩
  intro h
  exact absurd (h 5 (by decide)) (by decide)

/-- Claim C1 (amended): for every component list and every max,
`Values` is strictly ascending and duplicate-free; every element is `≤ max`
except possibly the unshifted `From` of a component with unset `To`
(which is contributed unconditionally); in particular when every such
`From` is `≤ max`, all elements are `≤ max`. -/
theorem c1_values_amended (cs : List component) (max : Nat) :
    (Values cs max).Sorted (· < ·) ∧ (Values cs max).Nodup ∧
      (∀ v ∈ Values cs max, v ≤ max ∨ ∃ c ∈ cs, c.To = 0 ∧ v = c.From) ∧
      ((∀ c ∈ cs, c.To = 0 → c.From ≤ max) → ∀ v ∈ Values cs max, v ≤ max) := by
  refine ⟨Values_sorted_lt cs max, Values_nodup cs max,
    fun v hv => mem_Values_bound cs max v hv, ?_⟩
  intro hsmall v hv
  rcases mem_Values_bound cs max v hv with h | ⟨c, hc, ht, he⟩
  · exact h
  · rw [he]; exact hsmall c hc ht

theorem c1_values_amended_witness :
    (Values [⟨2, 0, 0⟩, ⟨10, 20, 0⟩] 15).Sorted (· < ·) ∧
      ∀ v ∈ Values [⟨2, 0, 0⟩, ⟨10, 20, 0⟩] 15, v ≤ 15 := by
  obtain ⟨hs, _, _, hb⟩ := c1_values_amended [⟨2, 0, 0⟩, ⟨10, 20, 0⟩] 15
  exact ⟨hs, hb (by decide)⟩

/-! ### Claim C2 -/

/-- Claim C2: `components.Next(current, max)` returns `found = false` iff
`Values(max)` is empty; otherwise the returned value is a member of
`Values(max)`, it is the least element `≥ current` when one exists and the
least element overall otherwise, `diff = value - current`, and `diff` is
negative exactly when the wrap occurred. -/
theorem c2_next_spec (cs : List component) (current max : Nat) :
    ((Next cs current max).2.2 = false ↔ Values cs max = []) ∧
    (Values cs max ≠ [] →
      (Next cs current max).1 ∈ Values cs max ∧
      (Next cs current max).2.1
        = ((Next cs current max).1 : Int) - (current : Int) ∧
      ((∃ v ∈ Values cs max, current ≤ v) →
        current ≤ (Next cs current max).1 ∧
          ∀ v ∈ Values cs max, current ≤ v → (Next cs current max).1 ≤ v) ∧
      ((∀ v ∈ Values cs max, v < current) →
        ∀ v ∈ Values cs max, (Next cs current max).1 ≤ v) ∧
      ((Next cs current max).2.1 < 0 ↔ ∀ v ∈ Values cs max, v < current)) := by
  refine ⟨Next_not_ok_iff cs current max, fun hne => ?_⟩
  obtain ⟨hval, hdiff, hok⟩ := Next_val_eq cs current max hne
  refine ⟨Next_mem cs current max hne, hdiff, ?_, ?_, ?_⟩
  · rintro ⟨w, hw, hcw⟩
    obtain ⟨h1, h2, _⟩ := Next_no_wrap cs current max w hw hcw
    exact ⟨h1, h2⟩
  · intro hall
    exact (Next_wrap cs current max hne hall).1
  · constructor
    · intro hneg
      intro v hv
      by_contra hcon
      push_neg at hcon
      obtain ⟨_, _, hge⟩ := Next_no_wrap cs current max v hv hcon
      omega
    · intro hall
      exact (Next_wrap cs current max hne hall).2

theorem c2_next_spec_witness :
    (Next [⟨2, 0, 0⟩] 3 5).2.2 = true ∧ (Next [⟨2, 0, 0⟩] 3 5).1 ∈ Values [⟨2, 0, 0⟩] 5 ∧
      (Next [⟨2, 0, 0⟩] 3 5).2.1 < 0 := by
  obtain ⟨hiff, hrest⟩ := c2_next_spec [⟨2, 0, 0⟩] 3 5
  obtain ⟨hmem, hdiff, _, _, hwrap⟩ := hrest (by decide)
  refine ⟨?_, hmem, hwrap.mpr (by decide)⟩
  by_contra h
  have : (Next [⟨2, 0, 0⟩] 3 5).2.2 = false := by
    revert h; cases (Next [⟨2, 0, 0⟩] 3 5).2.2 <;> simp
  exact absurd (hiff.mp this) (by decide)

/-! ### Fuel monotonicity of `run` -/

theorem run_mono (e : Expression) (n m : Nat) (s : DateTime)
    (r : Option DateTime) (hnm : n ≤ m) (h : run e n s = some r) :
    run e m s = some r := by
  induction n generalizing m s with
  | zero => simp [run] at h
  | succ k ih =>
    match m with
    | 0 => omega
    | l+1 =>
      unfold run at h ⊢
      split at h
      · exact h
      · exact h
      · exact ih l _ (by omega) h

theorem ExpNext_of_run (e : Expression) (d : DateTime) (n : Nat)
    (r : Option DateTime) (hn : n ≤ ceiling e)
    (h : run e n (initState d) = some r) :
    ExpNext e d = r.map (fun t => wallSecs t) := by
  unfold ExpNext
  rw [run_mono e n (ceiling e) _ r hn h]
  cases r <;> rfl

/-! ### Helper facts for the rollover engine -/

theorem maxFroms_ge (cs : List component) (c : component) (hc : c ∈ cs) :
    c.From ≤ maxFroms cs := by
  induction cs with
  | nil => simp at hc
  | cons x xs ih =>
    rcases List.mem_cons.mp hc with h | h
    · subst h
      exact Nat.le_max_left _ _
    · exact le_trans (ih h) (Nat.le_max_right _ _)

theorem mem_Values_le (cs : List component) (max v : Nat) (hv : v ∈ Values cs max) :
    v ≤ max + maxFroms cs := by
  rcases mem_Values_bound cs max v hv with h | ⟨c, hc, _, he⟩
  · omega
  · have := maxFroms_ge cs c hc
    omega

theorem Next_ok_facts (cs : List component) (current max : Nat)
    (h : (Next cs current max).2.2 = true) :
    (Next cs current max).1 ∈ Values cs max ∧
      (Next cs current max).2.1
        = ((Next cs current max).1 : Int) - (current : Int) := by
  have hne : Values cs max ≠ [] := by
    intro hc
    have := (Next_not_ok_iff cs current max).mpr hc
    rw [h] at this
    exact Bool.true_eq_false.mp this
  obtain ⟨_, hdiff, _⟩ := Next_val_eq cs current max hne
  exact ⟨Next_mem cs current max hne, hdiff⟩

theorem daysInMonth_bounds (y : Int) (mo : Nat) :
    28 ≤ daysInMonth y mo ∧ daysInMonth y mo ≤ 31 := by
  unfold daysInMonth monthLength
  split
  · omega
  · split
    · split <;> omega
    · split <;> omega

theorem lexLe_refl (a : DateTime) : lexLe a a := by
  unfold lexLe lexLt
  omega

theorem lexLe_of_lexLt (a b : DateTime) (h : lexLt a b) : lexLe a b := Or.inl h

theorem lexLt_lexLe_trans (a b c : DateTime) (h₁ : lexLt a b) (h₂ : lexLe b c) :
    lexLt a c := by
  unfold lexLe lexLt at *
  omega

theorem lexLe_trans (a b c : DateTime) (h₁ : lexLe a b) (h₂ : lexLe b c) :
    lexLe a c := by
  unfold lexLe lexLt at *
  omega

/-! ### The step function stays in the box and increases the state -/

theorem Next_years_le (e : Expression) (cur : Nat)
    (h : (Next e.years cur MaxYears).2.2 = true) :
    (Next e.years cur MaxYears).1 ≤ YB e := by
  have := mem_Values_le _ _ _ (Next_ok_facts _ _ _ h).1
  unfold YB
  omega

theorem Next_months_le (e : Expression) (cur : Nat)
    (h : (Next e.months cur 12).2.2 = true) :
    (Next e.months cur 12).1 ≤ MB e := by
  have := mem_Values_le _ _ _ (Next_ok_facts _ _ _ h).1
  unfold MB
  omega

theorem Next_days_le (e : Expression) (cur : Nat) (y : Int) (mo : Nat)
    (h : (Next e.days cur (daysInMonth y mo)).2.2 = true) :
    (Next e.days cur (daysInMonth y mo)).1 ≤ DB e := by
  have := mem_Values_le _ _ _ (Next_ok_facts _ _ _ h).1
  have := daysInMonth_bounds y mo
  unfold DB
  omega

theorem Next_hours_le (e : Expression) (cur : Nat)
    (h : (Next e.hours cur 23).2.2 = true) :
    (Next e.hours cur 23).1 ≤ HB e := by
  have := mem_Values_le _ _ _ (Next_ok_facts _ _ _ h).1
  unfold HB
  omega

theorem Next_minutes_le (e : Expression) (cur : Nat)
    (h : (Next e.minutes cur 59).2.2 = true) :
    (Next e.minutes cur 59).1 ≤ MinB e := by
  have := mem_Values_le _ _ _ (Next_ok_facts _ _ _ h).1
  unfold MinB
  omega

theorem Next_seconds_le (e : Expression) (cur : Nat)
    (h : (Next e.seconds cur 59).2.2 = true) :
    (Next e.seconds cur 59).1 ≤ SB e := by
  have := mem_Values_le _ _ _ (Next_ok_facts _ _ _ h).1
  unfold SB
  omega

theorem stepSeconds_next_box (e : Expression) (y mo d h mi sec : Nat) (s' : DateTime)
    (hy : y ≤ YB e) (hmo : mo ≤ MB e) (hd : d ≤ DB e) (hh : h ≤ HB e)
    (hmi : mi ≤ MinB e)
    (hstep : stepSeconds e y mo d h mi sec = .next s') : InBox e s' := by
  unfold stepSeconds at hstep
  simp only [] at hstep
  split at hstep
  · exact absurd hstep (by simp)
  split at hstep
  · rename_i hok hneg
    have hsb := Next_seconds_le e sec (by simpa using hok)
    rw [StepRes.next.injEq] at hstep
    subst hstep
    dsimp only [InBox]
    omega
  · exact absurd hstep (by simp)

theorem stepMinutes_next_box (e : Expression) (y mo d h mi sec : Nat) (s' : DateTime)
    (hy : y ≤ YB e) (hmo : mo ≤ MB e) (hd : d ≤ DB e) (hh : h ≤ HB e)
    (hstep : stepMinutes e y mo d h mi sec = .next s') : InBox e s' := by
  unfold stepMinutes at hstep
  simp only [] at hstep
  split at hstep
  · exact absurd hstep (by simp)
  split at hstep
  · rename_i hok hneg
    have hmb := Next_minutes_le e mi (by simpa using hok)
    rw [StepRes.next.injEq] at hstep
    subst hstep
    dsimp only [InBox]
    omega
  · rename_i hok hneg
    exact stepSeconds_next_box e y mo d h _ _ s' hy hmo hd hh
      (Next_minutes_le e mi (by simpa using hok)) hstep

theorem stepHours_next_box (e : Expression) (y mo d h mi sec : Nat) (s' : DateTime)
    (hy : y ≤ YB e) (hmo : mo ≤ MB e) (hd : d ≤ DB e)
    (hstep : stepHours e y mo d h mi sec = .next s') : InBox e s' := by
  unfold stepHours at hstep
  simp only [] at hstep
  split at hstep
  · exact absurd hstep (by simp)
  split at hstep
  · rename_i hok hneg
    have hhb := Next_hours_le e h (by simpa using hok)
    rw [StepRes.next.injEq] at hstep
    subst hstep
    dsimp only [InBox]
    omega
  · rename_i hok hneg
    exact stepMinutes_next_box e y mo d _ _ _ s' hy hmo hd
      (Next_hours_le e h (by simpa using hok)) hstep

theorem stepWeekday_next_box (e : Expression) (y mo d h mi sec : Nat) (s' : DateTime)
    (hy : y ≤ YB e) (hmo : mo ≤ MB e) (hd : d ≤ DB e)
    (hstep : stepWeekday e y mo d h mi sec = .next s') : InBox e s' := by
  unfold stepWeekday at hstep
  split at hstep
  · rw [StepRes.next.injEq] at hstep
    subst hstep
    dsimp only [InBox]
    omega
  · exact stepHours_next_box e y mo d h mi sec s' hy hmo hd hstep

theorem stepDays_next_box (e : Expression) (y mo d h mi sec : Nat) (s' : DateTime)
    (hy : y ≤ YB e) (hmo : mo ≤ MB e)
    (hstep : stepDays e y mo d h mi sec = .next s') : InBox e s' := by
  unfold stepDays at hstep
  simp only [] at hstep
  split at hstep
  · exact absurd hstep (by simp)
  split at hstep
  · rename_i hok hneg
    have hdb := Next_days_le e d _ _ (by simpa using hok)
    rw [StepRes.next.injEq] at hstep
    subst hstep
    dsimp only [InBox]
    omega
  · rename_i hok hneg
    exact stepWeekday_next_box e y mo _ _ _ _ s' hy hmo
      (Next_days_le e d _ _ (by simpa using hok)) hstep

theorem stepMonths_next_box (e : Expression) (y mo d h mi sec : Nat) (s' : DateTime)
    (hy : y ≤ YB e)
    (hstep : stepMonths e y mo d h mi sec = .next s') : InBox e s' := by
  unfold stepMonths at hstep
  simp only [] at hstep
  split at hstep
  · exact absurd hstep (by simp)
  split at hstep
  · rename_i hok hneg
    have hmb := Next_months_le e mo (by simpa using hok)
    rw [StepRes.next.injEq] at hstep
    subst hstep
    dsimp only [InBox]
    omega
  · rename_i hok hneg
    exact stepDays_next_box e y _ _ _ _ _ s' hy
      (Next_months_le e mo (by simpa using hok)) hstep

theorem step_next_inbox (e : Expression) (s s' : DateTime)
    (h : step e s = .next s') : InBox e s' := by
  unfold step at h
  simp only [] at h
  split at h
  · exact absurd h (by simp)
  split at h
  · exact absurd h (by simp)
  rename_i hok hneg
  exact stepMonths_next_box e _ _ _ _ _ _ s'
    (Next_years_le e s.year (by simpa using hok)) h

/-! ### Each `continue` strictly increases the state lexicographically,
and a `done` pass never decreases it -/

theorem lexLe_lexLt_trans (a b c : DateTime) (h₁ : lexLe a b) (h₂ : lexLt b c) :
    lexLt a c := by
  unfold lexLe lexLt at *
  omega

theorem stepSeconds_next_lt (e : Expression) (y mo d h mi sec : Nat) (s' : DateTime)
    (hstep : stepSeconds e y mo d h mi sec = .next s') :
    lexLt ⟨y, mo, d, h, mi, sec⟩ s' := by
  unfold stepSeconds at hstep
  simp only [] at hstep
  split at hstep
  · exact absurd hstep (by simp)
  split at hstep
  · rw [StepRes.next.injEq] at hstep
    subst hstep
    dsimp only [lexLt]
    omega
  · exact absurd hstep (by simp)

theorem stepSeconds_done_ge (e : Expression) (y mo d h mi sec : Nat) (t : DateTime)
    (hstep : stepSeconds e y mo d h mi sec = .done t) :
    lexLe ⟨y, mo, d, h, mi, sec⟩ t := by
  unfold stepSeconds at hstep
  simp only [] at hstep
  split at hstep
  · exact absurd hstep (by simp)
  split at hstep
  · exact absurd hstep (by simp)
  · rename_i hok hneg
    have hf := (Next_ok_facts e.seconds sec 59 (by simpa using hok)).2
    rw [StepRes.done.injEq] at hstep
    subst hstep
    dsimp only [lexLe, lexLt]
    omega

theorem stepMinutes_next_lt (e : Expression) (y mo d h mi sec : Nat) (s' : DateTime)
    (hstep : stepMinutes e y mo d h mi sec = .next s') :
    lexLt ⟨y, mo, d, h, mi, sec⟩ s' := by
  unfold stepMinutes at hstep
  simp only [] at hstep
  split at hstep
  · exact absurd hstep (by simp)
  split at hstep
  · rw [StepRes.next.injEq] at hstep
    subst hstep
    dsimp only [lexLt]
    omega
  · rename_i hok hneg
    have hf := (Next_ok_facts e.minutes mi 59 (by simpa using hok)).2
    refine lexLe_lexLt_trans _ _ _ ?_ (stepSeconds_next_lt e y mo d h _ _ s' hstep)
    by_cases hpos : 0 < (Next e.minutes mi 59).2.1
    · dsimp only [lexLe, lexLt]
      omega
    · simp only [if_neg hpos]
      dsimp only [lexLe, lexLt]
      omega

theorem stepMinutes_done_ge (e : Expression) (y mo d h mi sec : Nat) (t : DateTime)
    (hstep : stepMinutes e y mo d h mi sec = .done t) :
    lexLe ⟨y, mo, d, h, mi, sec⟩ t := by
  unfold stepMinutes at hstep
  simp only [] at hstep
  split at hstep
  · exact absurd hstep (by simp)
  split at hstep
  · exact absurd hstep (by simp)
  · rename_i hok hneg
    have hf := (Next_ok_facts e.minutes mi 59 (by simpa using hok)).2
    refine lexLe_trans _ _ _ ?_ (stepSeconds_done_ge e y mo d h _ _ t hstep)
    by_cases hpos : 0 < (Next e.minutes mi 59).2.1
    · dsimp only [lexLe, lexLt]
      omega
    · simp only [if_neg hpos]
      dsimp only [lexLe, lexLt]
      omega

theorem stepHours_next_lt (e : Expression) (y mo d h mi sec : Nat) (s' : DateTime)
    (hstep : stepHours e y mo d h mi sec = .next s') :
    lexLt ⟨y, mo, d, h, mi, sec⟩ s' := by
  unfold stepHours at hstep
  simp only [] at hstep
  split at hstep
  · exact absurd hstep (by simp)
  split at hstep
  · rw [StepRes.next.injEq] at hstep
    subst hstep
    dsimp only [lexLt]
    omega
  · rename_i hok hneg
    have hf := (Next_ok_facts e.hours h 23 (by simpa using hok)).2
    refine lexLe_lexLt_trans _ _ _ ?_ (stepMinutes_next_lt e y mo d _ _ _ s' hstep)
    by_cases hpos : 0 < (Next e.hours h 23).2.1
    · dsimp only [lexLe, lexLt]
      omega
    · simp only [if_neg hpos]
      dsimp only [lexLe, lexLt]
      omega

theorem stepHours_done_ge (e : Expression) (y mo d h mi sec : Nat) (t : DateTime)
    (hstep : stepHours e y mo d h mi sec = .done t) :
    lexLe ⟨y, mo, d, h, mi, sec⟩ t := by
  unfold stepHours at hstep
  simp only [] at hstep
  split at hstep
  · exact absurd hstep (by simp)
  split at hstep
  · exact absurd hstep (by simp)
  · rename_i hok hneg
    have hf := (Next_ok_facts e.hours h 23 (by simpa using hok)).2
    refine lexLe_trans _ _ _ ?_ (stepMinutes_done_ge e y mo d _ _ _ t hstep)
    by_cases hpos : 0 < (Next e.hours h 23).2.1
    · dsimp only [lexLe, lexLt]
      omega
    · simp only [if_neg hpos]
      dsimp only [lexLe, lexLt]
      omega

theorem stepWeekday_next_lt (e : Expression) (y mo d h mi sec : Nat) (s' : DateTime)
    (hstep : stepWeekday e y mo d h mi sec = .next s') :
    lexLt ⟨y, mo, d, h, mi, sec⟩ s' := by
  unfold stepWeekday at hstep
  split at hstep
  · rw [StepRes.next.injEq] at hstep
    subst hstep
    dsimp only [lexLt]
    omega
  · exact stepHours_next_lt e y mo d h mi sec s' hstep

theorem stepWeekday_done_ge (e : Expression) (y mo d h mi sec : Nat) (t : DateTime)
    (hstep : stepWeekday e y mo d h mi sec = .done t) :
    lexLe ⟨y, mo, d, h, mi, sec⟩ t := by
  unfold stepWeekday at hstep
  split at hstep
  · exact absurd hstep (by simp)
  · exact stepHours_done_ge e y mo d h mi sec t hstep

theorem stepDays_next_lt (e : Expression) (y mo d h mi sec : Nat) (s' : DateTime)
    (hstep : stepDays e y mo d h mi sec = .next s') :
    lexLt ⟨y, mo, d, h, mi, sec⟩ s' := by
  unfold stepDays at hstep
  simp only [] at hstep
  split at hstep
  · exact absurd hstep (by simp)
  split at hstep
  · rw [StepRes.next.injEq] at hstep
    subst hstep
    dsimp only [lexLt]
    omega
  · rename_i hok hneg
    have hf := (Next_ok_facts e.days d (daysInMonth y mo) (by simpa using hok)).2
    refine lexLe_lexLt_trans _ _ _ ?_ (stepWeekday_next_lt e y mo _ _ _ _ s' hstep)
    by_cases hpos : 0 < (Next e.days d (daysInMonth y mo)).2.1
    · dsimp only [lexLe, lexLt]
      omega
    · simp only [if_neg hpos]
      dsimp only [lexLe, lexLt]
      omega

theorem stepDays_done_ge (e : Expression) (y mo d h mi sec : Nat) (t : DateTime)
    (hstep : stepDays e y mo d h mi sec = .done t) :
    lexLe ⟨y, mo, d, h, mi, sec⟩ t := by
  unfold stepDays at hstep
  simp only [] at hstep
  split at hstep
  · exact absurd hstep (by simp)
  split at hstep
  · exact absurd hstep (by simp)
  · rename_i hok hneg
    have hf := (Next_ok_facts e.days d (daysInMonth y mo) (by simpa using hok)).2
    refine lexLe_trans _ _ _ ?_ (stepWeekday_done_ge e y mo _ _ _ _ t hstep)
    by_cases hpos : 0 < (Next e.days d (daysInMonth y mo)).2.1
    · dsimp only [lexLe, lexLt]
      omega
    · simp only [if_neg hpos]
      dsimp only [lexLe, lexLt]
      omega

theorem stepMonths_next_lt (e : Expression) (y mo d h mi sec : Nat) (s' : DateTime)
    (hstep : stepMonths e y mo d h mi sec = .next s') :
    lexLt ⟨y, mo, d, h, mi, sec⟩ s' := by
  unfold stepMonths at hstep
  simp only [] at hstep
  split at hstep
  · exact absurd hstep (by simp)
  split at hstep
  · rw [StepRes.next.injEq] at hstep
    subst hstep
    dsimp only [lexLt]
    omega
  · rename_i hok hneg
    have hf := (Next_ok_facts e.months mo 12 (by simpa using hok)).2
    refine lexLe_lexLt_trans _ _ _ ?_ (stepDays_next_lt e y _ _ _ _ _ s' hstep)
    by_cases hpos : 0 < (Next e.months mo 12).2.1
    · dsimp only [lexLe, lexLt]
      omega
    · simp only [if_neg hpos]
      dsimp only [lexLe, lexLt]
      omega

theorem stepMonths_done_ge (e : Expression) (y mo d h mi sec : Nat) (t : DateTime)
    (hstep : stepMonths e y mo d h mi sec = .done t) :
    lexLe ⟨y, mo, d, h, mi, sec⟩ t := by
  unfold stepMonths at hstep
  simp only [] at hstep
  split at hstep
  · exact absurd hstep (by simp)
  split at hstep
  · exact absurd hstep (by simp)
  · rename_i hok hneg
    have hf := (Next_ok_facts e.months mo 12 (by simpa using hok)).2
    refine lexLe_trans _ _ _ ?_ (stepDays_done_ge e y _ _ _ _ _ t hstep)
    by_cases hpos : 0 < (Next e.months mo 12).2.1
    · dsimp only [lexLe, lexLt]
      omega
    · simp only [if_neg hpos]
      dsimp only [lexLe, lexLt]
      omega

theorem step_next_lt (e : Expression) (s s' : DateTime)
    (h : step e s = .next s') : lexLt s s' := by
  unfold step at h
  simp only [] at h
  split at h
  · exact absurd h (by simp)
  split at h
  · exact absurd h (by simp)
  rename_i hok hneg
  have hf := (Next_ok_facts e.years s.year MaxYears (by simpa using hok)).2
  refine lexLe_lexLt_trans _ _ _ ?_ (stepMonths_next_lt e _ _ _ _ _ _ s' h)
  by_cases hpos : 0 < (Next e.years s.year MaxYears).2.1
  · dsimp only [lexLe, lexLt]
    omega
  · simp only [if_neg hpos]
    dsimp only [lexLe, lexLt]
    omega

theorem step_done_ge (e : Expression) (s t : DateTime)
    (h : step e s = .done t) : lexLe s t := by
  unfold step at h
  simp only [] at h
  split at h
  · exact absurd h (by simp)
  split at h
  · exact absurd h (by simp)
  rename_i hok hneg
  have hf := (Next_ok_facts e.years s.year MaxYears (by simpa using hok)).2
  refine lexLe_trans _ _ _ ?_ (stepMonths_done_ge e _ _ _ _ _ _ t h)
  by_cases hpos : 0 < (Next e.years s.year MaxYears).2.1
  · dsimp only [lexLe, lexLt]
    omega
  · simp only [if_neg hpos]
    dsimp only [lexLe, lexLt]
    omega

/-! ### The mixed-radix measure and termination of the loop -/

theorem mixed_lt (x x' r r' K : Nat) (hxx : x < x') (hr : r < K) :
    x * K + r < x' * K + r' := by
  have h1 : x * K + r < (x + 1) * K := by
    have : (x + 1) * K = x * K + K := by ring
    omega
  have h2 : (x + 1) * K ≤ x' * K := Nat.mul_le_mul_right K hxx
  omega

theorem mixed_bound (x r A K : Nat) (hx : x < A) (hr : r < K) :
    x * K + r < A * K := by
  have h1 : x * K + r < (x + 1) * K := by
    have : (x + 1) * K = x * K + K := by ring
    omega
  have h2 : (x + 1) * K ≤ A * K := Nat.mul_le_mul_right K hx
  omega

theorem encode_lt (e : Expression) (a b : DateTime) (ha : InBox e a) (hb : InBox e b)
    (hab : lexLt a b) : encode e a < encode e b := by
  obtain ⟨ha1, ha2, ha3, ha4, ha5, ha6⟩ := ha
  unfold encode
  unfold lexLt at hab
  rcases hab with h | ⟨hy, hab⟩
  · exact mixed_lt _ _ _ _ _ (mixed_lt _ _ _ _ _ (mixed_lt _ _ _ _ _
      (mixed_lt _ _ _ _ _ (mixed_lt _ _ _ _ _ h (by omega)) (by omega))
      (by omega)) (by omega)) (by omega)
  · have e1 : a.year * (MB e + 2) = b.year * (MB e + 2) := by rw [hy]
    rcases hab with h | ⟨hmo, hab⟩
    · have l1 : a.year * (MB e + 2) + a.month < b.year * (MB e + 2) + b.month := by
        omega
      exact mixed_lt _ _ _ _ _ (mixed_lt _ _ _ _ _ (mixed_lt _ _ _ _ _
        (mixed_lt _ _ _ _ _ l1 (by omega)) (by omega)) (by omega)) (by omega)
    · have e2 : a.year * (MB e + 2) + a.month = b.year * (MB e + 2) + b.month := by
        omega
      rw [e2]
      rcases hab with h | ⟨hd, hab⟩
      · have l2 : (b.year * (MB e + 2) + b.month) * (DB e + 2) + a.day
            < (b.year * (MB e + 2) + b.month) * (DB e + 2) + b.day := by omega
        exact mixed_lt _ _ _ _ _ (mixed_lt _ _ _ _ _ (mixed_lt _ _ _ _ _ l2 (by omega))
          (by omega)) (by omega)
      · rw [hd]
        rcases hab with h | ⟨hh, hab⟩
        · have l3 : ((b.year * (MB e + 2) + b.month) * (DB e + 2) + b.day) * (HB e + 2)
              + a.hour
              < ((b.year * (MB e + 2) + b.month) * (DB e + 2) + b.day) * (HB e + 2)
              + b.hour := by omega
          exact mixed_lt _ _ _ _ _ (mixed_lt _ _ _ _ _ l3 (by omega)) (by omega)
        · rw [hh]
          rcases hab with h | ⟨hmi, hs⟩
          · have l4 : (((b.year * (MB e + 2) + b.month) * (DB e + 2) + b.day) * (HB e + 2)
                + b.hour) * (MinB e + 2) + a.minute
                < (((b.year * (MB e + 2) + b.month) * (DB e + 2) + b.day) * (HB e + 2)
                + b.hour) * (MinB e + 2) + b.minute := by omega
            exact mixed_lt _ _ _ _ _ l4 (by omega)
          · rw [hmi]
            omega

theorem encode_bound (e : Expression) (s : DateTime) (hs : InBox e s) :
    encode e s < boxSize e := by
  obtain ⟨h1, h2, h3, h4, h5, h6⟩ := hs
  unfold encode boxSize
  exact mixed_bound _ _ _ _ (mixed_bound _ _ _ _ (mixed_bound _ _ _ _
    (mixed_bound _ _ _ _ (mixed_bound _ _ _ _ (by omega) (by omega)) (by omega))
    (by omega)) (by omega)) (by omega)

theorem run_isSome_box (e : Expression) (n : Nat) (s : DateTime)
    (hbox : InBox e s) (hn : boxSize e - encode e s < n) :
    (run e n s).isSome = true := by
  induction n generalizing s with
  | zero => omega
  | succ k ih =>
    unfold run
    rcases hstep : step e s with t | _ | s'
    · rfl
    · rfl
    · have hbox' := step_next_inbox e s s' hstep
      have hlt := step_next_lt e s s' hstep
      have henc := encode_lt e s s' hbox hbox' hlt
      have hP := encode_bound e s' hbox'
      exact ih s' hbox' (by omega)

theorem ceiling_sufficient (e : Expression) (d : DateTime) :
    (run e (ceiling e) (initState d)).isSome = true := by
  unfold ceiling
  show (run e (boxSize e + 1 + 1) (initState d)).isSome = true
  unfold run
  rcases hstep : step e (initState d) with t | _ | s'
  · rfl
  · rfl
  · have hbox' := step_next_inbox e _ s' hstep
    have hP := encode_bound e s' hbox'
    exact run_isSome_box e (boxSize e + 1) s' hbox' (by omega)

/-! ### Claim C3 -/

/-- Claim C3: for every expression and input instant the rollover loop of
`Expression.Next` terminates, with the number of loop passes bounded by the
safety ceiling `ceiling e` computed from the expression: running with that
much fuel always completes (returning found or not-found, never
fuel-exhaustion), and giving any larger fuel cannot change the result, so
there is no input on which the code would loop forever.  (The Go code has
no explicit pass counter; the ceiling is the proved bound on its restarts.) -/
theorem c3_terminates (e : Expression) (d : DateTime) :
    (run e (ceiling e) (initState d)).isSome = true ∧
      ∀ fuel, ceiling e ≤ fuel →
        run e fuel (initState d) = run e (ceiling e) (initState d) := by
  have h1 := ceiling_sufficient e d
  refine ⟨h1, ?_⟩
  intro fuel hf
  obtain ⟨r, hr⟩ := Option.isSome_iff_exists.mp h1
  rw [hr]
  exact run_mono e (ceiling e) fuel _ r hf hr

theorem c3_terminates_witness :
    (run ⟨[⟨1, 7⟩], [⟨2005, 0, 0⟩], [⟨1, 12, 0⟩], [⟨1, 31, 0⟩],
        [⟨0, 0, 0⟩], [⟨0, 0, 0⟩], [⟨0, 0, 0⟩], ("UTC").toList⟩
      (ceiling ⟨[⟨1, 7⟩], [⟨2005, 0, 0⟩], [⟨1, 12, 0⟩], [⟨1, 31, 0⟩],
        [⟨0, 0, 0⟩], [⟨0, 0, 0⟩], [⟨0, 0, 0⟩], ("UTC").toList⟩)
      (initState ⟨2006, 1, 2, 15, 4, 5⟩)).isSome = true :=
  (c3_terminates _ _).1

/-! ### Claim C5: validity of the civil decomposition of any returned
instant -/

theorem peelYear_lt (fuel yoe rem : Nat) (h : rem < 365 * fuel) :
    (peelYear fuel yoe rem).2 < marchYearLen (peelYear fuel yoe rem).1 := by
  induction fuel generalizing yoe rem with
  | zero => omega
  | succ n ih =>
    unfold peelYear
    split
    · simpa using ‹rem < marchYearLen yoe›
    · apply ih
      have : 365 ≤ marchYearLen yoe := by unfold marchYearLen; split <;> omega
      omega

theorem marchBefore_step (lf : Bool) (mp : Nat) (h : mp ≤ 10) :
    marchBefore mp + marchMonthLen lf mp = marchBefore (mp + 1) := by
  interval_cases mp <;> simp [marchBefore, marchMonthLen]

theorem peelMonth_lt (lf : Bool) (fuel mp rem : Nat)
    (hf : 12 ≤ fuel + mp) (hmp : mp ≤ 11)
    (h : rem + marchBefore mp < 337 + marchMonthLen lf 11) :
    (peelMonth lf fuel mp rem).2 < marchMonthLen lf (peelMonth lf fuel mp rem).1 ∧
      (peelMonth lf fuel mp rem).1 ≤ 11 := by
  induction fuel generalizing mp rem with
  | zero => omega
  | succ n ih =>
    unfold peelMonth
    split
    · rename_i hcond
      rcases hcond with h11 | hlt
      · have hmp11 : mp = 11 := by omega
        subst hmp11
        refine ⟨?_, le_of_eq rfl⟩
        show rem < marchMonthLen lf 11
        have : marchBefore 11 = 337 := by simp [marchBefore]
        omega
      · exact ⟨hlt, hmp⟩
    · rename_i hcond
      push_neg at hcond
      obtain ⟨h11, hge⟩ := hcond
      have hmp10 : mp ≤ 10 := by omega
      apply ih
      · omega
      · omega
      · have := marchBefore_step lf mp hmp10
        omega

theorem leap_shift (era : Int) (x : Int) : Leap (400 * era + x) ↔ Leap x := by
  unfold Leap
  omega

theorem monthLength_of_mp (era : Int) (yoe mp : Nat) (hmp : mp ≤ 11) :
    monthLength (400 * era + yoe + (if 10 ≤ mp then 1 else 0))
        (if mp < 10 then mp + 3 else mp - 9)
      = marchMonthLen (decide (Leap ((yoe : Int) + 1))) mp := by
  rcases Nat.lt_or_ge mp 11 with h11 | h11
  · interval_cases mp <;> simp [monthLength, marchMonthLen]
  · have hmp11 : mp = 11 := by omega
    subst hmp11
    simp only [monthLength, marchMonthLen]
    norm_num
    have h : (400 * era + (yoe : Int) + 1) = 400 * era + ((yoe : Int) + 1) := by ring
    by_cases hL : Leap ((yoe : Int) + 1)
    · have hL2 : Leap (400 * era + (yoe : Int) + 1) := by
        rw [h]; exact (leap_shift era _).mpr hL
      simp [hL, hL2]
    · have hL2 : ¬ Leap (400 * era + (yoe : Int) + 1) := by
        rw [h]; exact fun hc => hL ((leap_shift era _).mp hc)
      simp [hL, hL2]

theorem civilFromDays_valid (z : Int) :
    1 ≤ (civilFromDays z).2.1 ∧ (civilFromDays z).2.1 ≤ 12 ∧
      1 ≤ (civilFromDays z).2.2 ∧
      (civilFromDays z).2.2 ≤ monthLength (civilFromDays z).1 (civilFromDays z).2.1 := by
  unfold civilFromDays
  simp only []
  obtain ⟨yoe, doy, hP⟩ : ∃ a b, peelYear 500 0 ((z + 719468) % 146097).toNat = (a, b) :=
    ⟨_, _, rfl⟩
  rw [hP]
  simp only []
  have h1 := peelYear_lt 500 0 ((z + 719468) % 146097).toNat (by omega)
  rw [hP] at h1
  simp only [] at h1
  obtain ⟨mp, rem, hQ⟩ : ∃ a b, peelMonth (decide (Leap ((yoe : Int) + 1))) 12 0 doy = (a, b) :=
    ⟨_, _, rfl⟩
  rw [hQ]
  simp only []
  have h2 := peelMonth_lt (decide (Leap ((yoe : Int) + 1))) 12 0 doy (by omega) (by omega)
    (by
      have hYL : marchYearLen yoe
          = 337 + marchMonthLen (decide (Leap ((yoe : Int) + 1))) 11 := by
        unfold marchYearLen marchMonthLen
        by_cases hL : Leap ((yoe : Int) + 1)
        · simp [hL]
        · simp [hL]
      have : marchBefore 0 = 0 := by simp [marchBefore]
      omega)
  rw [hQ] at h2
  simp only [] at h2
  obtain ⟨hrem, hmp⟩ := h2
  refine ⟨by split <;> omega, by split <;> omega, by omega, ?_⟩
  rw [monthLength_of_mp ((z + 719468) / 146097) yoe mp hmp]
  omega

/-- Bridging lemma: for a calendar month `m ∈ [1,12]`, the engine's
`daysInMonth` is exactly `monthLength`. -/
theorem daysInMonth_eq_monthLength (y : Int) (m : Nat) (h1 : 1 ≤ m) (h12 : m ≤ 12) :
    daysInMonth y m = monthLength y m := by
  interval_cases m <;> norm_num [daysInMonth, monthLength]

/-- Claim C5: whenever `Expression.Next` returns an instant, the civil
decomposition of that instant has a day within `daysInMonth` of the
returned year and month (in particular day 29 of February appears only in
leap years) — the returned `time.Time` is normalised, so an oversized
working day value rolls over into the following month rather than being
returned. -/
theorem c5_day_of_month (e : Expression) (d : DateTime) (z : Int)
    (h : ExpNext e d = some z) :
    1 ≤ (civilFromDays (z / 86400)).2.1 ∧ (civilFromDays (z / 86400)).2.1 ≤ 12 ∧
      1 ≤ (civilFromDays (z / 86400)).2.2 ∧
      (civilFromDays (z / 86400)).2.2
        ≤ daysInMonth (civilFromDays (z / 86400)).1 (civilFromDays (z / 86400)).2.1 ∧
      ((civilFromDays (z / 86400)).2.1 = 2 ∧ (civilFromDays (z / 86400)).2.2 = 29 →
        Leap (civilFromDays (z / 86400)).1) := by
  obtain ⟨v1, v2, v3, v4⟩ := civilFromDays_valid (z / 86400)
  rw [daysInMonth_eq_monthLength _ _ v1 v2]
  refine ⟨v1, v2, v3, v4, ?_⟩
  rintro ⟨h2, h29⟩
  by_contra hL
  have hml : monthLength (civilFromDays (z / 86400)).1 (civilFromDays (z / 86400)).2.1
      = 28 := by
    rw [h2]
    unfold monthLength
    simp [hL]
  omega

theorem c5_day_of_month_witness :
    1 ≤ (civilFromDays ((1167609600 : Int) / 86400)).2.1 ∧
      (civilFromDays ((1167609600 : Int) / 86400)).2.1 ≤ 12 ∧
      1 ≤ (civilFromDays ((1167609600 : Int) / 86400)).2.2 ∧
      (civilFromDays ((1167609600 : Int) / 86400)).2.2
        ≤ daysInMonth (civilFromDays ((1167609600 : Int) / 86400)).1
            (civilFromDays ((1167609600 : Int) / 86400)).2.1 ∧
      ((civilFromDays ((1167609600 : Int) / 86400)).2.1 = 2 ∧
          (civilFromDays ((1167609600 : Int) / 86400)).2.2 = 29 →
        Leap (civilFromDays ((1167609600 : Int) / 86400)).1) :=
  c5_day_of_month
    ⟨[⟨1, 7⟩], [⟨2007, 0, 0⟩], [⟨1, 0, 0⟩], [⟨1, 0, 0⟩],
      [⟨0, 0, 0⟩], [⟨0, 0, 0⟩], [⟨0, 0, 0⟩], ("UTC").toList⟩
    ⟨2006, 1, 2, 15, 4, 5⟩ 1167609600 (by decide)

/-! ### Field facts of a completed pass, and over a whole run -/

theorem mem_Values_ge (cs : List component) (max v : Nat) (hv : v ∈ Values cs max) :
    ∃ c ∈ cs, c.From ≤ v := by
  rw [mem_Values_iff] at hv
  obtain ⟨c, hc, hvc⟩ := hv
  exact ⟨c, hc, ge_of_mem_expandF _ _ _ _ _ _ hvc⟩

theorem stepSeconds_done_fields (e : Expression) (y mo d h mi sec : Nat) (t : DateTime)
    (hstep : stepSeconds e y mo d h mi sec = .done t) :
    t.year = y ∧ t.month = mo ∧ t.day = d := by
  unfold stepSeconds at hstep
  simp only [] at hstep
  split at hstep
  · exact absurd hstep (by simp)
  split at hstep
  · exact absurd hstep (by simp)
  · rw [StepRes.done.injEq] at hstep
    subst hstep
    exact ⟨rfl, rfl, rfl⟩

theorem stepMinutes_done_fields (e : Expression) (y mo d h mi sec : Nat) (t : DateTime)
    (hstep : stepMinutes e y mo d h mi sec = .done t) :
    t.year = y ∧ t.month = mo ∧ t.day = d := by
  unfold stepMinutes at hstep
  simp only [] at hstep
  split at hstep
  · exact absurd hstep (by simp)
  split at hstep
  · exact absurd hstep (by simp)
  · exact stepSeconds_done_fields e y mo d h _ _ t hstep

theorem stepHours_done_fields (e : Expression) (y mo d h mi sec : Nat) (t : DateTime)
    (hstep : stepHours e y mo d h mi sec = .done t) :
    t.year = y ∧ t.month = mo ∧ t.day = d := by
  unfold stepHours at hstep
  simp only [] at hstep
  split at hstep
  · exact absurd hstep (by simp)
  split at hstep
  · exact absurd hstep (by simp)
  · exact stepMinutes_done_fields e y mo d _ _ _ t hstep

theorem stepWeekday_done_fields (e : Expression) (y mo d h mi sec : Nat) (t : DateTime)
    (hstep : stepWeekday e y mo d h mi sec = .done t) :
    t.year = y ∧ t.month = mo ∧ t.day = d := by
  unfold stepWeekday at hstep
  split at hstep
  · exact absurd hstep (by simp)
  · exact stepHours_done_fields e y mo d h mi sec t hstep

theorem stepDays_done_fields (e : Expression) (y mo d h mi sec : Nat) (t : DateTime)
    (hstep : stepDays e y mo d h mi sec = .done t) :
    t.year = y ∧ t.month = mo ∧ t.day ∈ Values e.days (daysInMonth y mo) := by
  unfold stepDays at hstep
  simp only [] at hstep
  split at hstep
  · exact absurd hstep (by simp)
  split at hstep
  · exact absurd hstep (by simp)
  · rename_i hok hneg
    obtain ⟨h1, h2, h3⟩ := stepWeekday_done_fields e y mo _ _ _ _ t hstep
    refine ⟨h1, h2, ?_⟩
    rw [h3]
    exact (Next_ok_facts e.days d (daysInMonth y mo) (by simpa using hok)).1

theorem stepMonths_done_fields (e : Expression) (y mo d h mi sec : Nat) (t : DateTime)
    (hstep : stepMonths e y mo d h mi sec = .done t) :
    t.year = y ∧ t.month ∈ Values e.months 12 ∧
      t.day ∈ Values e.days (daysInMonth y t.month) := by
  unfold stepMonths at hstep
  simp only [] at hstep
  split at hstep
  · exact absurd hstep (by simp)
  split at hstep
  · exact absurd hstep (by simp)
  · rename_i hok hneg
    obtain ⟨h1, h2, h3⟩ := stepDays_done_fields e y _ _ _ _ _ t hstep
    refine ⟨h1, ?_, ?_⟩
    · rw [h2]
      exact (Next_ok_facts e.months mo 12 (by simpa using hok)).1
    · rw [h2]
      exact h3

theorem step_done_fields (e : Expression) (s t : DateTime)
    (h : step e s = .done t) :
    t.month ∈ Values e.months 12 ∧
      t.day ∈ Values e.days (daysInMonth t.year t.month) := by
  unfold step at h
  simp only [] at h
  split at h
  · exact absurd h (by simp)
  split at h
  · exact absurd h (by simp)
  obtain ⟨h1, h2, h3⟩ := stepMonths_done_fields e _ _ _ _ _ _ t h
  rw [← h1] at h3
  exact ⟨h2, h3⟩

theorem run_done_ge (e : Expression) (n : Nat) (s t : DateTime)
    (h : run e n s = some (some t)) : lexLe s t := by
  induction n generalizing s with
  | zero => simp [run] at h
  | succ k ih =>
    unfold run at h
    split at h
    · rename_i t0 ht0
      rw [Option.some.injEq, Option.some.injEq] at h
      subst h
      exact step_done_ge e s _ ht0
    · simp at h
    · rename_i s' hs'
      exact lexLe_trans _ _ _ (lexLe_of_lexLt _ _ (step_next_lt e s s' hs')) (ih s' h)

theorem run_done_fields (e : Expression) (n : Nat) (s t : DateTime)
    (h : run e n s = some (some t)) :
    t.month ∈ Values e.months 12 ∧
      t.day ∈ Values e.days (daysInMonth t.year t.month) := by
  induction n generalizing s with
  | zero => simp [run] at h
  | succ k ih =>
    unfold run at h
    split at h
    · rename_i t0 ht0
      rw [Option.some.injEq, Option.some.injEq] at h
      subst h
      exact step_done_fields e s _ ht0
    · simp at h
    · rename_i s' hs'
      exact ih s' h

/-! ### Monotonicity of the wall clock (for claim C4) -/

theorem monthStartIdx_lt_succ (mi : Int) : monthStartIdx mi < monthStartIdx (mi + 1) := by
  simp only [monthStartIdx, daysFromCivil]
  omega

theorem monthStartIdx_mono (a b : Int) (h : a ≤ b) :
    monthStartIdx a ≤ monthStartIdx b :=
  (strictMono_int_of_lt_succ monthStartIdx_lt_succ).monotone h

theorem wallDays_eq (y mo d : Int) :
    wallDays y mo d = monthStartIdx (12 * y + (mo - 1)) + (d - 1) := by
  have hA : (12 * y + (mo - 1)) / 12 = y + (mo - 1) / 12 := by omega
  have hB : (12 * y + (mo - 1)) % 12 = (mo - 1) % 12 := by omega
  unfold wallDays monthStartIdx
  rw [hA, hB]

set_option maxHeartbeats 2000000 in
theorem monthLen_step (y : Int) (m : Nat) (h1 : 1 ≤ m) (h12 : m ≤ 12) :
    monthStartIdx (12 * y + ((m : Int) - 1)) + (monthLength y m : Int)
      = monthStartIdx (12 * y + (m : Int)) := by
  by_cases hL : Leap y
  · have hla : y % 4 = 0 ∧ (y % 100 ≠ 0 ∨ y % 400 = 0) := hL
    interval_cases m <;>
      simp only [monthStartIdx, daysFromCivil, monthLength, if_pos hL] <;>
      (try norm_num) <;> (try omega)
  · have hla : ¬(y % 4 = 0 ∧ (y % 100 ≠ 0 ∨ y % 400 = 0)) := hL
    interval_cases m <;>
      simp only [monthStartIdx, daysFromCivil, monthLength, if_neg hL] <;>
      (try norm_num) <;> (try omega)

theorem wallSecs_initState (d : DateTime) :
    wallSecs (initState d) = wallSecs d + 1 := by
  unfold wallSecs initState
  push_cast
  ring

/-- Monotonicity of the wall clock: a real civil tuple `r` compared with a
lexicographically larger (possibly denormalised, but forward-only:
month ≥ 1 and day ≥ 1) tuple `s` never maps to a later absolute time than
`s` does. -/
theorem wallSecs_mono (r s : DateTime) (hr : SemiValid r)
    (hmo : 1 ≤ s.month) (hd : 1 ≤ s.day) (hle : lexLe r s) :
    wallSecs r ≤ wallSecs s := by
  obtain ⟨hr1, hr2, hr3, hr4, hr5, hr6, hr7⟩ := hr
  have hwr := wallDays_eq (r.year : Int) (r.month : Int) (r.day : Int)
  have hws := wallDays_eq (s.year : Int) (s.month : Int) (s.day : Int)
  unfold wallSecs
  rcases hle with hlt | ⟨e1, e2, e3, e4, e5, e6⟩
  · unfold lexLt at hlt
    rcases hlt with h | ⟨hy, hlt⟩
    · -- year strictly increases
      have hstep := monthLen_step (r.year : Int) r.month hr1 hr2
      have hm1 : monthStartIdx (12 * (r.year : Int) + (r.month : Int))
          ≤ monthStartIdx (12 * (s.year : Int) + ((s.month : Int) - 1)) :=
        monthStartIdx_mono _ _ (by omega)
      omega
    · rcases hlt with h | ⟨hm, hlt⟩
      · -- month strictly increases
        have hstep := monthLen_step (r.year : Int) r.month hr1 hr2
        have hm1 : monthStartIdx (12 * (r.year : Int) + (r.month : Int))
            ≤ monthStartIdx (12 * (s.year : Int) + ((s.month : Int) - 1)) :=
          monthStartIdx_mono _ _ (by omega)
        omega
      · have hms : monthStartIdx (12 * (r.year : Int) + ((r.month : Int) - 1))
            = monthStartIdx (12 * (s.year : Int) + ((s.month : Int) - 1)) := by
          rw [hy, hm]
        rcases hlt with h | ⟨hdd, hlt⟩
        · -- day strictly increases
          omega
        · -- same date, clock comparison
          have hwd : wallDays (r.year : Int) (r.month : Int) (r.day : Int)
              = wallDays (s.year : Int) (s.month : Int) (s.day : Int) := by
            rw [hy, hm, hdd]
          rcases hlt with h | ⟨hh, hlt⟩
          · omega
          · rcases hlt with h | ⟨hmi, hs⟩
            · omega
            · omega
  · have hwd : wallDays (r.year : Int) (r.month : Int) (r.day : Int)
        = wallDays (s.year : Int) (s.month : Int) (s.day : Int) := by
      rw [e1, e2, e3]
    omega

/-! ### Claim C4 -/

theorem ExpNext_some (e : Expression) (d : DateTime) (z : Int)
    (h : ExpNext e d = some z) :
    ∃ t, run e (ceiling e) (initState d) = some (some t) ∧ z = wallSecs t := by
  unfold ExpNext at h
  rcases hrun : run e (ceiling e) (initState d) with _ | r
  · rw [hrun] at h
    simp at h
  · rw [hrun] at h
    cases r with
    | none => simp at h
    | some t =>
      simp only [Option.some.injEq] at h
      exact ⟨t, rfl, h.symm⟩

/-- Claim C4 counterexample: the parseable expression `"*-0-* 0:0:0 UTC"`
(month value zero), evaluated at the valid instant 2006-12-15T00:00:00,
returns found with the instant 2006-12-01T00:00:00 — fourteen days *before*
the input.  `time.Date` normalises the working month 0 backward into
December of the previous year, so the result is not strictly after `d`. -/
theorem c4_counterexample :
    ValidCivil ⟨2006, 12, 15, 0, 0, 0⟩ ∧
      ExpNext expMonthZero ⟨2006, 12, 15, 0, 0, 0⟩ = some 1164931200 ∧
      (1164931200 : Int) < wallSecs ⟨2006, 12, 15, 0, 0, 0⟩ :=
  ⟨by decide, by decide, by decide⟩

/-- Claim C4 (amended): for every expression whose month and day components
all have `From ≥ 1` — so the working month and day stay positive and
`time.Date` never normalises backward — and every valid civil instant `d`,
if `Expression.Next` returns an instant then that instant is strictly
after `d`. -/
theorem c4_next_strictly_after (e : Expression) (d : DateTime)
    (hd : ValidCivil d)
    (hmonths : ∀ c ∈ e.months, 1 ≤ c.From)
    (hdays : ∀ c ∈ e.days, 1 ≤ c.From)
    (z : Int) (h : ExpNext e d = some z) :
    wallSecs d < z := by
  obtain ⟨t, hrun, hz⟩ := ExpNext_some e d z h
  have hle := run_done_ge e _ _ t hrun
  obtain ⟨hmem_mo, hmem_d⟩ := run_done_fields e _ _ t hrun
  obtain ⟨cm, hcm, hcmle⟩ := mem_Values_ge _ _ _ hmem_mo
  obtain ⟨cd, hcd, hcdle⟩ := mem_Values_ge _ _ _ hmem_d
  have hmo1 : 1 ≤ t.month := le_trans (hmonths cm hcm) hcmle
  have hd1 : 1 ≤ t.day := le_trans (hdays cd hcd) hcdle
  have hsemi : SemiValid (initState d) := by
    obtain ⟨a1, a2, a3, a4, a5, a6, a7⟩ := hd
    exact ⟨a1, a2, a3, a4, a5, a6, by dsimp only [initState]; omega⟩
  have hmono := wallSecs_mono (initState d) t hsemi hmo1 hd1 hle
  have hinit := wallSecs_initState d
  omega

theorem c4_next_strictly_after_witness :
    wallSecs ⟨2006, 1, 2, 15, 4, 5⟩ < 1167609600 :=
  c4_next_strictly_after
    ⟨[⟨1, 7⟩], [⟨2007, 0, 0⟩], [⟨1, 0, 0⟩], [⟨1, 0, 0⟩],
      [⟨0, 0, 0⟩], [⟨0, 0, 0⟩], [⟨0, 0, 0⟩], ("UTC").toList⟩
    ⟨2006, 1, 2, 15, 4, 5⟩ (by decide) (by decide) (by decide)
    1167609600 (by decide)

/-! ### Development sanity examples -/

-- calendar sanity
example : civilFromDays 0 = (1970, 1, 1) := by decide
example : civilFromDays 13150 = (2006, 1, 2) := by decide
example : civilFromDays (daysFromCivil 2016 2 29) = (2016, 2, 29) := by decide
example : civilFromDays (daysFromCivil 2100 2 28) = (2100, 2, 28) := by decide
example : civilFromDays (daysFromCivil 2100 3 1) = (2100, 3, 1) := by decide
example : civilFromDays (daysFromCivil 1969 12 31) = (1969, 12, 31) := by decide
example : goWeekday 2006 1 2 = 1 := by decide    -- 2006-01-02 was a Monday
example : goWeekday 2006 1 8 = 7 := by decide    -- 2006-01-08 was a Sunday
example : daysInMonth 2016 2 = 29 := by decide
example : daysInMonth 2015 2 = 28 := by decide
example : daysInMonth 2015 0 = 31 := by decide   -- time.Date(y, 1, 0) = Dec 31 of y-1
example : daysInMonth 2015 12 = 31 := by decide
example : wallDays 2007 0 2 = daysFromCivil 2006 12 2 := by decide

-- engine sanity: the library's own test scenarios (expression values as the
-- parser produces them), run with small fuel.

-- "*-01-01 00:00:00 UTC" at 2006-01-02T15:04:05Z gives 2007-01-01T00:00:00Z
example :
    run
      ⟨[⟨1, 7⟩], [⟨1970, 2199, 0⟩], [⟨1, 0, 0⟩], [⟨1, 0, 0⟩],
        [⟨0, 0, 0⟩], [⟨0, 0, 0⟩], [⟨0, 0, 0⟩], ("UTC").toList⟩
      10 (initState ⟨2006, 1, 2, 15, 4, 5⟩)
      = some (some ⟨2007, 1, 1, 0, 0, 0⟩) := by decide

-- "*-*-01 00:00:00 UTC" at the same instant gives 2006-02-01T00:00:00Z
example :
    run
      ⟨[⟨1, 7⟩], [⟨1970, 2199, 0⟩], [⟨1, 12, 0⟩], [⟨1, 0, 0⟩],
        [⟨0, 0, 0⟩], [⟨0, 0, 0⟩], [⟨0, 0, 0⟩], ("UTC").toList⟩
      10 (initState ⟨2006, 1, 2, 15, 4, 5⟩)
      = some (some ⟨2006, 2, 1, 0, 0, 0⟩) := by decide

-- "2005-*-* 00:00:00 UTC" at the same instant: not found (year in the past)
example :
    run
      ⟨[⟨1, 7⟩], [⟨2005, 0, 0⟩], [⟨1, 12, 0⟩], [⟨1, 31, 0⟩],
        [⟨0, 0, 0⟩], [⟨0, 0, 0⟩], [⟨0, 0, 0⟩], ("UTC").toList⟩
      10 (initState ⟨2006, 1, 2, 15, 4, 5⟩)
      = some none := by decide

-- "Mon 00:00:00 UTC" at 2006-01-02T15:04:05Z (a Monday) gives 2006-01-09
example :
    run
      ⟨[⟨1, 0⟩], [⟨1970, 2199, 0⟩], [⟨1, 12, 0⟩], [⟨1, 31, 0⟩],
        [⟨0, 0, 0⟩], [⟨0, 0, 0⟩], [⟨0, 0, 0⟩], ("UTC").toList⟩
      20 (initState ⟨2006, 1, 2, 15, 4, 5⟩)
      = some (some ⟨2006, 1, 9, 0, 0, 0⟩) := by decide

-- "*-0-* 0:0:0 UTC" (month zero parses!) at 2006-12-15T00:00:00Z returns
-- the *earlier* instant 2006-12-01T00:00:00Z via Go's backward
-- normalisation of month 0.
example :
    run
      ⟨[⟨1, 7⟩], [⟨1970, 2199, 0⟩], [⟨0, 0, 0⟩], [⟨1, 31, 0⟩],
        [⟨0, 0, 0⟩], [⟨0, 0, 0⟩], [⟨0, 0, 0⟩], ("UTC").toList⟩
      10 (initState ⟨2006, 12, 15, 0, 0, 0⟩)
      = some (some ⟨2007, 0, 1, 0, 0, 0⟩) := by decide

example : Values [⟨5, 0, 0⟩] 3 = [5] := by decide
example : Values [⟨1, 4, 0⟩, ⟨2, 0, 3⟩] 10 = [1, 2, 3, 4, 5, 8] := by decide
example : Values [⟨0, 0, 7⟩] 23 = [0, 7, 14, 21] := by decide
example : Next [⟨2, 0, 0⟩] 3 5 = (2, -1, true) := by decide
example : Next [⟨2, 0, 0⟩] 1 5 = (2, 1, true) := by decide
example : Next ([] : List component) 1 5 = (0, 0, false) := by decide

/- PARSER SANITY - TEMPORARY
-/
example : natDigits 2006 = ("2006").toList := by decide
example : pad2 5 = ("05").toList := by decide
example : splitDots (("1..5").toList) = [("1").toList, ("5").toList] := by decide
example : splitDots (("1....5").toList) = [("1").toList, [], ("5").toList] := by decide
example : splitDots (("...").toList) = [[], (".").toList] := by decide
example : parseGoInt (("2006").toList) = some 2006 := by decide
example : parseGoInt (("-7").toList) = some (-7) := by decide
example : parseGoInt (("+7").toList) = some 7 := by decide
example : parseGoInt (("7a").toList) = none := by decide
example : parseGoInt [] = none := by decide
example : parseValue (("05").toList) = some ⟨5, 0, 0⟩ := by decide
example : parseValue (("5/3").toList) = some ⟨5, 0, 3⟩ := by decide
example : parseValue (("5/").toList) = none := by decide
example : parseValue (("5/3/2").toList) = none := by decide
example : parseRange (("1..5/2").toList) = some ⟨1, 5, 2⟩ := by decide
example : parseRange (("5..5").toList) = none := by decide
example : parseComponents (("1,2..4/2,9").toList) = some [⟨1,0,0⟩, ⟨2,4,2⟩, ⟨9,0,0⟩] := by decide
example : parseWeekdayComponents (("Mon,tue..FRI").toList) = some [⟨1,0⟩, ⟨2,5⟩] := by decide
example :
    ParseE (("2005-*-* 00:00:00 UTC").toList) =
      some ⟨[⟨1,7⟩], [⟨2005,0,0⟩], [⟨1,12,0⟩], [⟨1,31,0⟩],
        [⟨0,0,0⟩], [⟨0,0,0⟩], [⟨0,0,0⟩], ("UTC").toList⟩ := by decide
example :
    ParseE (("Mon 2006-01-02 15:04:05 Europe/Paris").toList) =
      some ⟨[⟨1,0⟩], [⟨2006,0,0⟩], [⟨1,0,0⟩], [⟨2,0,0⟩],
        [⟨15,0,0⟩], [⟨4,0,0⟩], [⟨5,0,0⟩], ("Europe/Paris").toList⟩ := by decide
example :
    ParseE (("Mon..Fri 10:00").toList) =
      some ⟨[⟨1,5⟩], [⟨1970,2199,0⟩], [⟨1,12,0⟩], [⟨1,31,0⟩],
        [⟨10,0,0⟩], [⟨0,0,0⟩], [⟨0,0,0⟩], ("Local").toList⟩ := by decide
example : ParseE (("*-*-*").toList) = some defaultExpression := by decide
example : ParseE (("  ").toList) = none := by decide
example : ParseE (("a b c d e").toList) = none := by decide
example : ParseE (("*-13-* 0:0:0").toList) =
    some ⟨[⟨1,7⟩], [⟨1970,2199,0⟩], [⟨13,0,0⟩], [⟨1,31,0⟩],
      [⟨0,0,0⟩], [⟨0,0,0⟩], [⟨0,0,0⟩], ("Local").toList⟩ := by decide
example : renderE defaultExpression = ("*-*-* 00:00:00").toList := by decide
example :
    renderE ⟨[⟨1,0⟩], [⟨2006,0,0⟩], [⟨1,0,0⟩], [⟨2,0,0⟩],
        [⟨15,0,0⟩], [⟨4,0,0⟩], [⟨5,0,0⟩], ("Europe/Paris").toList⟩ =
      ("Mon 2006-01-02 15:04:05 Europe/Paris").toList := by decide
example :
    renderE ⟨[⟨1,7⟩], [⟨1970,2199,0⟩], [⟨1,12,0⟩], [⟨1,31,0⟩],
        [⟨0,23,0⟩], [⟨0,59,0⟩], [⟨0,59,0⟩], ("UTC").toList⟩ =
      ("*-*-* *:*:* UTC").toList := by decide
example :
    scheduleMarshal [defaultExpression, defaultExpression] =
      ("*-*-* 00:00:00\x22*-*-* 00:00:00").toList := by decide
example : scheduleUnmarshal (("  \n\n ").toList) = some [] := by decide
example : ParseScheduleE (("\n").toList) = none := by decide

/-- C6: in the rollover loop the years field never wraps: whenever the
years stage yields a found value with negative diff, the whole pass
returns not-found (no carry above years exists); and concretely the
expression `"2005-*-* 00:00:00 UTC"` parses to `exp2005`, whose next
occurrence after 2006-01-02T15:04:05Z does not exist. -/
theorem c6_years_never_wrap :
    (∀ (e : Expression) (s : DateTime),
        (Next e.years s.year MaxYears).2.2 = true →
        (Next e.years s.year MaxYears).2.1 < 0 →
        step e s = StepRes.notFound) ∧
      ParseE (("2005-*-* 00:00:00 UTC").toList) = some exp2005 ∧
      ExpNext exp2005 ⟨2006, 1, 2, 15, 4, 5⟩ = none := by
  refine ⟨fun e s h1 h2 => ?_, by decide, by decide⟩
  simp only [step]
  simp [h1, h2]

/-- C6 witness: the structural part applied to `exp2005` at the seeded
state for 2006-01-02T15:04:05Z, where the years stage indeed wraps. -/
theorem c6_years_never_wrap_witness :
    (Next exp2005.years 2006 MaxYears).2.2 = true ∧
      (Next exp2005.years 2006 MaxYears).2.1 < 0 ∧
      step exp2005 ⟨2006, 1, 2, 15, 4, 6⟩ = StepRes.notFound :=
  ⟨by decide, by decide,
    c6_years_never_wrap.1 exp2005 ⟨2006, 1, 2, 15, 4, 6⟩ (by decide) (by decide)⟩

/-- C8: the spec says schedule serialization joins member renderings with
a newline; the code (src/schedule.go line 77) joins them with a double
quote instead.  Concretely, marshaling a two-expression schedule yields
the two renderings joined by `'"'`, which is not the newline join, and
`ParseSchedule` cannot read it back — while `ParseSchedule` of the
newline join does recover the members in order. -/
theorem c8_counterexample :
    scheduleMarshal [defaultExpression, defaultExpression] =
        renderE defaultExpression ++ '"' :: renderE defaultExpression ∧
      scheduleMarshal [defaultExpression, defaultExpression] ≠
        joinSep ['\x0a'] [renderE defaultExpression, renderE defaultExpression] ∧
      ParseScheduleE (scheduleMarshal [defaultExpression, defaultExpression]) = none ∧
      ParseScheduleE (("*-*-* 00:00:00\x0a*-*-* 00:00:00").toList) =
        some [defaultExpression, defaultExpression] := by
  refine ⟨by decide, by decide, by decide, by decide⟩

/-! ### Blank-line handling in schedules (C10) -/

theorem splitPred_ne_nil (p : Char → Bool) (s : Str) : splitPred p s ≠ [] := by
  cases s with
  | nil => simp [splitPred]
  | cons x xs =>
    simp only [splitPred]
    split
    · simp
    · split <;> simp

theorem splitPred_all_true (p : Char → Bool) (s : Str) (h : ∀ c ∈ s, p c = true) :
    splitPred p s = List.replicate (s.length + 1) [] := by
  induction s with
  | nil => rfl
  | cons x xs ih =>
    have hx : p x = true := h x (by simp)
    simp only [splitPred, hx, if_true, List.length_cons]
    rw [ih (fun c hc => h c (by simp [hc]))]
    rfl

theorem filter_replicate_ne_nil (n : Nat) :
    (List.replicate n ([] : Str)).filter (· ≠ []) = [] := by
  induction n with
  | zero => rfl
  | succ m ih => simp [List.replicate_succ, List.filter_cons, ih]

theorem goFields_allspace (l : Str) (h : ∀ c ∈ l, isGoSpace c = true) :
    goFields l = [] := by
  unfold goFields
  rw [splitPred_all_true _ _ h]
  exact filter_replicate_ne_nil _

theorem trimSpace_nil_imp (l : Str) (h : trimSpace l = []) :
    ∀ c ∈ l, isGoSpace c = true := by
  unfold trimSpace at h
  rw [List.reverse_eq_nil_iff, List.dropWhile_eq_nil_iff] at h
  intro c hc
  have hsplit : c ∈ l.takeWhile isGoSpace ++ l.dropWhile isGoSpace := by
    rw [List.takeWhile_append_dropWhile]; exact hc
  rcases List.mem_append.mp hsplit with h1 | h2
  · exact List.mem_takeWhile_imp h1
  · exact h c (List.mem_reverse.mpr h2)

theorem ParseE_blank (l : Str) (h : trimSpace l = []) : ParseE l = none := by
  have hg : goFields l = [] := goFields_allspace l (trimSpace_nil_imp l h)
  simp [ParseE, hg]

theorem unmarshalLines_blank (ls : List Str) (h : ∀ l ∈ ls, trimSpace l = []) :
    unmarshalLines ls = some [] := by
  induction ls with
  | nil => rfl
  | cons l rest ih =>
    simp only [unmarshalLines, if_pos (h l (by simp))]
    exact ih fun x hx => h x (by simp [hx])

theorem unmarshalLines_filter (ls : List Str) :
    unmarshalLines ls = parseExpList (ls.filter (fun l => trimSpace l ≠ [])) := by
  induction ls with
  | nil => rfl
  | cons l rest ih =>
    by_cases h : trimSpace l = []
    · have hd : (decide (trimSpace l ≠ [])) = false := by simp [h]
      simp only [unmarshalLines, if_pos h, List.filter_cons, hd, if_false]
      exact ih
    · have hd : (decide (trimSpace l ≠ [])) = true := by simp [h]
      simp only [unmarshalLines, if_neg h, List.filter_cons, hd, if_true, parseExpList]
      rw [ih]

theorem parseExpList_none (ls : List Str) (l : Str) (hmem : l ∈ ls)
    (hl : ParseE l = none) : parseExpList ls = none := by
  induction ls with
  | nil => cases hmem
  | cons a as ih =>
    rcases List.mem_cons.mp hmem with rfl | hmem'
    · simp [parseExpList, hl]
    · simp only [parseExpList]
      cases hP : ParseE a with
      | none => rfl
      | some e => rw [ih hmem']

/-- C10: `Schedule.UnmarshalText` silently skips blank lines — an input
whose lines are all blank unmarshals to the empty schedule without error,
and in general the result is exactly the parse of the non-blank lines —
whereas `ParseSchedule` fails on any input containing a blank line. -/
theorem c10_blank_lines :
    (∀ text : Str,
        (∀ l ∈ (splitChar '\x0a' text).filter (· ≠ []), trimSpace l = []) →
        scheduleUnmarshal text = some []) ∧
      (∀ text : Str,
        scheduleUnmarshal text =
          parseExpList (((splitChar '\x0a' text).filter (· ≠ [])).filter
            (fun l => trimSpace l ≠ []))) ∧
      (∀ text : Str, (∃ l ∈ splitChar '\x0a' text, trimSpace l = []) →
        ParseScheduleE text = none) := by
  refine ⟨fun text h => ?_, fun text => ?_, fun text h => ?_⟩
  · exact unmarshalLines_blank _ h
  · exact unmarshalLines_filter _
  · rcases h with ⟨l, hmem, hl⟩
    exact parseExpList_none _ l hmem (ParseE_blank l hl)

/-- C10 witness: whitespace-only text unmarshals to the empty schedule,
and `ParseSchedule` rejects a lone newline (two blank lines). -/
theorem c10_blank_lines_witness :
    scheduleUnmarshal (("  \x0a\x0a ").toList) = some [] ∧
      ParseScheduleE (("\x0a").toList) = none :=
  ⟨c10_blank_lines.1 _ (by decide), c10_blank_lines.2.2 _ ⟨[], by decide, by decide⟩⟩

/-! ### Splitting joined strings back apart (towards C7) -/

theorem splitPred_none (p : Char → Bool) (s : Str) (h : ∀ c ∈ s, p c = false) :
    splitPred p s = [s] := by
  induction s with
  | nil => rfl
  | cons x xs ih =>
    have hx : p x = false := h x (by simp)
    simp only [splitPred, hx, Bool.false_eq_true, if_false]
    rw [ih (fun c hc => h c (by simp [hc]))]

theorem splitPred_sep (p : Char → Bool) (a s : Str) (x : Char)
    (ha : ∀ c ∈ a, p c = false) (hx : p x = true) :
    splitPred p (a ++ x :: s) = a :: splitPred p s := by
  induction a with
  | nil => simp [splitPred, hx]
  | cons y ys ih =>
    have hy : p y = false := ha y (by simp)
    have ih' := ih fun c hc => ha c (List.mem_cons_of_mem _ hc)
    simp [splitPred, hy, ih']

theorem splitPred_joinSep (p : Char → Bool) (x : Char) (parts : List Str)
    (hx : p x = true) (hp : parts ≠ [])
    (hparts : ∀ pt ∈ parts, ∀ c ∈ pt, p c = false) :
    splitPred p (joinSep [x] parts) = parts := by
  induction parts with
  | nil => cases hp rfl
  | cons a rest ih =>
    cases rest with
    | nil => exact splitPred_none p a (hparts a (by simp))
    | cons b rest' =>
      have : joinSep [x] (a :: b :: rest') = a ++ x :: joinSep [x] (b :: rest') := by
        simp [joinSep]
      rw [this, splitPred_sep p a _ x (hparts a (by simp)) hx,
        ih (by simp) (fun pt hpt => hparts pt (by simp [hpt]))]

theorem splitChar_joinSep (x : Char) (parts : List Str) (hp : parts ≠ [])
    (hparts : ∀ pt ∈ parts, ∀ c ∈ pt, (c == x) = false) :
    splitChar x (joinSep [x] parts) = parts :=
  splitPred_joinSep _ x parts (by simp) hp hparts

theorem goFields_chunks (chunks : List Str) (hne : chunks ≠ [])
    (h : ∀ ck ∈ chunks, ck ≠ [] ∧ ∀ c ∈ ck, isGoSpace c = false) :
    goFields (joinSep [' '] chunks) = chunks := by
  unfold goFields
  rw [splitPred_joinSep isGoSpace ' ' chunks (by decide) hne
    (fun pt hpt => (h pt hpt).2)]
  rw [List.filter_eq_self]
  intro ck hck
  simpa using (h ck hck).1

/-! ### Splitting at double dots (towards C7) -/

theorem splitDots_none (s : Str) (h : ∀ c ∈ s, c ≠ '.') : splitDots s = [s] := by
  induction s with
  | nil => rfl
  | cons x xs ih =>
    cases xs with
    | nil => rfl
    | cons y ys =>
      have hx : x ≠ '.' := h x (by simp)
      have ih' := ih fun c hc => h c (List.mem_cons_of_mem _ hc)
      simp only [splitDots, ih']
      rw [if_neg (fun hc => hx hc.1)]

theorem splitDots_dd (b : Str) : splitDots ('.' :: '.' :: b) = [] :: splitDots b := by
  simp [splitDots]

theorem splitDots_sep (a b : Str) (ha : ∀ c ∈ a, c ≠ '.') :
    splitDots (a ++ '.' :: '.' :: b) = a :: splitDots b := by
  induction a with
  | nil => simp [splitDots]
  | cons x xs ih =>
    have hx : x ≠ '.' := ha x (by simp)
    cases xs with
    | nil => simp [splitDots, hx]
    | cons y ys =>
      have ih' := ih fun c hc => ha c (List.mem_cons_of_mem _ hc)
      rw [List.cons_append] at ih'
      simp [splitDots, hx, ih']

theorem hasDots_false (s : Str) (h : ∀ c ∈ s, c ≠ '.') : hasDots s = false := by
  induction s with
  | nil => rfl
  | cons x xs ih =>
    cases xs with
    | nil => rfl
    | cons y ys =>
      have hx : x ≠ '.' := h x (by simp)
      have ih' := ih fun c hc => h c (List.mem_cons_of_mem _ hc)
      simp only [hasDots, ih']
      simp [hx]

theorem hasDots_sep (a b : Str) : hasDots (a ++ '.' :: '.' :: b) = true := by
  induction a with
  | nil => simp [hasDots]
  | cons x xs ih =>
    cases hxs : xs ++ '.' :: '.' :: b with
    | nil => simp at hxs
    | cons y ys =>
      simp only [List.cons_append, hasDots, hxs]
      rw [← hxs, ih]
      simp

/-! ### Decimal digits round-trip (towards C7) -/

theorem digitsVal_append (xs : Str) (c : Char) :
    digitsVal (xs ++ [c]) = digitsVal xs * 10 + (c.toNat - 48) := by
  simp [digitsVal, List.foldl_append]

theorem char_ofNat_digit_toNat (n : Nat) (h : n < 10) :
    (Char.ofNat (48 + n)).toNat = 48 + n := by
  interval_cases n <;> decide

theorem natDigitsF_digits (fuel n : Nat) :
    ∀ c ∈ natDigitsF fuel n, isDigitChar c = true := by
  induction fuel generalizing n with
  | zero => intro c hc; simp [natDigitsF] at hc
  | succ m ih =>
    intro c hc
    unfold natDigitsF at hc
    split at hc
    · rename_i h10
      simp only [List.mem_singleton] at hc
      subst hc
      simp only [isDigitChar, char_ofNat_digit_toNat n h10, Bool.and_eq_true,
        decide_eq_true_eq]
      omega
    · rcases List.mem_append.mp hc with h1 | h2
      · exact ih (n / 10) c h1
      · simp only [List.mem_singleton] at h2
        subst h2
        have hm : n % 10 < 10 := Nat.mod_lt _ (by norm_num)
        simp only [isDigitChar, char_ofNat_digit_toNat _ hm, Bool.and_eq_true,
          decide_eq_true_eq]
        omega

theorem natDigits_digits (n : Nat) : ∀ c ∈ natDigits n, isDigitChar c = true :=
  natDigitsF_digits (n + 1) n

theorem pad2_digits (n : Nat) : ∀ c ∈ pad2 n, isDigitChar c = true := by
  unfold pad2
  split
  · intro c hc
    rcases List.mem_cons.mp hc with rfl | h2
    · decide
    · exact natDigits_digits n c h2
  · exact natDigits_digits n

theorem natDigits_ne_nil (n : Nat) : natDigits n ≠ [] := by
  unfold natDigits natDigitsF
  split <;> simp

theorem pad2_ne_nil (n : Nat) : pad2 n ≠ [] := by
  unfold pad2
  split
  · simp
  · exact natDigits_ne_nil n

theorem digitsVal_natDigitsF (fuel n : Nat) (h : n < 10 ^ fuel) :
    digitsVal (natDigitsF fuel n) = n := by
  induction fuel generalizing n with
  | zero =>
    simp only [pow_zero, Nat.lt_one_iff] at h
    subst h
    rfl
  | succ m ih =>
    unfold natDigitsF
    split
    · rename_i h10
      simp [digitsVal, char_ofNat_digit_toNat n h10]
    · rename_i h10
      rw [digitsVal_append,
        ih (n / 10) ((Nat.div_lt_iff_lt_mul (by norm_num)).mpr (by rw [← pow_succ]; exact h)),
        char_ofNat_digit_toNat _ (Nat.mod_lt _ (by norm_num))]
      omega

theorem digitsVal_natDigits (n : Nat) : digitsVal (natDigits n) = n :=
  digitsVal_natDigitsF (n + 1) n
    (lt_of_lt_of_le (Nat.lt_pow_self (by norm_num) n)
      (Nat.pow_le_pow_right (by norm_num) (Nat.le_succ n)))

theorem digitsVal_pad2 (n : Nat) : digitsVal (pad2 n) = n := by
  unfold pad2
  split
  · show digitsVal ('0' :: natDigits n) = n
    have h0 : digitsVal ('0' :: natDigits n) = digitsVal (natDigits n) := by
      simp [digitsVal]
    rw [h0, digitsVal_natDigits]
  · exact digitsVal_natDigits n

theorem isDigitChar_bounds (c : Char) (h : isDigitChar c = true) :
    48 ≤ c.toNat ∧ c.toNat ≤ 57 := by
  simpa [isDigitChar] using h

theorem isDigitChar_ne (c d : Char) (h : isDigitChar c = true)
    (hd : d.toNat < 48 ∨ 57 < d.toNat) : c ≠ d := by
  intro he
  subst he
  have := isDigitChar_bounds c h
  omega

theorem parseDigits_of (s : Str) (hne : s ≠ []) (hd : ∀ c ∈ s, isDigitChar c = true) :
    parseDigits s = some (digitsVal s) := by
  unfold parseDigits
  rw [if_neg hne, if_pos (List.all_eq_true.mpr hd)]

theorem parseGoInt_digits (s : Str) (hne : s ≠ []) (hd : ∀ c ∈ s, isDigitChar c = true)
    (hrange : (digitsVal s : Int) < 2 ^ 63) :
    parseGoInt s = some (digitsVal s) := by
  cases s with
  | nil => cases hne rfl
  | cons c rest =>
    have hc : isDigitChar c = true := hd c (by simp)
    have h1 : c ≠ '-' := isDigitChar_ne c '-' hc (by decide)
    have h2 : c ≠ '+' := isDigitChar_ne c '+' hc (by decide)
    simp only [parseGoInt, if_neg h1, if_neg h2, parseDigits_of _ hne hd]
    rw [if_pos hrange]
    rfl

theorem parseGoInt_pad2 (n : Nat) (h : (n : Int) < 2 ^ 63) :
    parseGoInt (pad2 n) = some (n : Int) := by
  rw [parseGoInt_digits (pad2 n) (pad2_ne_nil n) (pad2_digits n)
    (by rw [digitsVal_pad2]; exact h), digitsVal_pad2]
  rfl

theorem parseGoInt_natDigits (n : Nat) (h : (n : Int) < 2 ^ 63) :
    parseGoInt (natDigits n) = some (n : Int) := by
  rw [parseGoInt_digits (natDigits n) (natDigits_ne_nil n) (natDigits_digits n)
    (by rw [digitsVal_natDigits]; exact h), digitsVal_natDigits]
  rfl

/-! ### Character classes of rendered components (towards C7) -/

theorem splitChar_none (x : Char) (s : Str) (h : ∀ c ∈ s, (c == x) = false) :
    splitChar x s = [s] :=
  splitPred_none _ s h

theorem splitChar_sep (x : Char) (a b : Str) (ha : ∀ c ∈ a, (c == x) = false) :
    splitChar x (a ++ x :: b) = a :: splitChar x b :=
  splitPred_sep _ a b x ha (by simp)

theorem isGoSpace_toNat (ch : Char) (h : isGoSpace ch = true) :
    ch.toNat = 32 ∨ ch.toNat = 9 ∨ ch.toNat = 10 ∨ ch.toNat = 13 ∨
      ch.toNat = 11 ∨ ch.toNat = 12 ∨ ch.toNat = 133 ∨ ch.toNat = 160 := by
  simp only [isGoSpace, Bool.or_eq_true, beq_iff_eq] at h
  rcases h with ((((((h | h) | h) | h) | h) | h) | h) | h <;>
    first
      | omega
      | (subst h; decide)

theorem renderComponent_chars (c : component) :
    ∀ ch ∈ renderComponent c, isDigitChar ch = true ∨ ch = '.' ∨ ch = '/' := by
  intro ch hch
  unfold renderComponent at hch
  rcases List.mem_append.mp hch with h1 | h2
  · rcases List.mem_append.mp h1 with h3 | h4
    · exact Or.inl (pad2_digits _ ch h3)
    · by_cases ht : c.To = 0
      · rw [if_pos ht] at h4; cases h4
      · rw [if_neg ht] at h4
        rcases List.mem_cons.mp h4 with rfl | h5
        · exact Or.inr (Or.inl rfl)
        · rcases List.mem_cons.mp h5 with rfl | h6
          · exact Or.inr (Or.inl rfl)
          · exact Or.inl (pad2_digits _ ch h6)
  · by_cases hr : c.Repeat = 0
    · rw [if_pos hr] at h2; cases h2
    · rw [if_neg hr] at h2
      rcases List.mem_cons.mp h2 with rfl | h3
      · exact Or.inr (Or.inr rfl)
      · exact Or.inl (natDigits_digits _ ch h3)

theorem renderComponent_toNat (c : component) :
    ∀ ch ∈ renderComponent c, 46 ≤ ch.toNat ∧ ch.toNat ≤ 57 := by
  intro ch hch
  rcases renderComponent_chars c ch hch with h | h | h
  · have := isDigitChar_bounds ch h; omega
  · subst h; decide
  · subst h; decide

theorem renderComponent_ne (c : component) (d : Char)
    (hd : d.toNat < 46 ∨ 57 < d.toNat) :
    ∀ ch ∈ renderComponent c, (ch == d) = false := by
  intro ch hch
  have hb := renderComponent_toNat c ch hch
  rw [beq_eq_false_iff_ne]
  intro he
  subst he
  omega

theorem renderComponent_not_space (c : component) :
    ∀ ch ∈ renderComponent c, isGoSpace ch = false := by
  intro ch hch
  have hb := renderComponent_toNat c ch hch
  cases hsp : isGoSpace ch with
  | false => rfl
  | true => have := isGoSpace_toNat ch hsp; omega

theorem renderComponent_ne_nil (c : component) : renderComponent c ≠ [] := by
  unfold renderComponent
  simp [pad2_ne_nil]

theorem renderComponent_no_star (c : component) :
    ∀ ch ∈ renderComponent c, ch ≠ '*' := by
  intro ch hch he
  have hb := renderComponent_toNat c ch hch
  subst he
  revert hb
  decide

theorem joinSep_chars (sep : Str) (parts : List Str) (P : Char → Prop)
    (hsep : ∀ c ∈ sep, P c) (hparts : ∀ pt ∈ parts, ∀ c ∈ pt, P c) :
    ∀ c ∈ joinSep sep parts, P c := by
  induction parts with
  | nil => simp [joinSep]
  | cons a rest ih =>
    cases rest with
    | nil => exact hparts a (by simp)
    | cons b rest2 =>
      intro c hc
      simp only [joinSep, List.append_assoc, List.mem_append] at hc
      rcases hc with h1 | h2 | h3
      · exact hparts a (by simp) c h1
      · exact hsep c h2
      · exact ih (fun pt hpt => hparts pt (List.mem_cons_of_mem _ hpt)) c h3

theorem renderComponents_toNat (cs : List component) :
    ∀ ch ∈ renderComponents cs, 44 ≤ ch.toNat ∧ ch.toNat ≤ 57 := by
  unfold renderComponents
  refine joinSep_chars _ _ _ (by decide) ?_
  intro pt hpt c hc
  rcases List.mem_map.mp hpt with ⟨cc, _, rfl⟩
  have := renderComponent_toNat cc c hc
  omega

theorem renderComponents_ne (cs : List component) (d : Char)
    (hd : d.toNat < 44 ∨ 57 < d.toNat) :
    ∀ ch ∈ renderComponents cs, (ch == d) = false := by
  intro ch hch
  have hb := renderComponents_toNat cs ch hch
  rw [beq_eq_false_iff_ne]
  intro he
  subst he
  omega

theorem renderComponents_not_space (cs : List component) :
    ∀ ch ∈ renderComponents cs, isGoSpace ch = false := by
  intro ch hch
  have hb := renderComponents_toNat cs ch hch
  cases hsp : isGoSpace ch with
  | false => rfl
  | true => have := isGoSpace_toNat ch hsp; omega

theorem renderComponents_ne_star (cs : List component) :
    renderComponents cs ≠ ['*'] := by
  intro he
  have hs : '*' ∈ renderComponents cs := by rw [he]; simp
  have := renderComponents_toNat cs '*' hs
  revert this
  decide

/-! ### Component rendering round-trip (towards C7) -/

theorem pad2_ne (n : Nat) (d : Char) (hd : d.toNat < 48 ∨ 57 < d.toNat) :
    ∀ ch ∈ pad2 n, ch ≠ d :=
  fun ch hch => isDigitChar_ne ch d (pad2_digits n ch hch) hd

theorem pad2_bne (n : Nat) (d : Char) (hd : d.toNat < 48 ∨ 57 < d.toNat) :
    ∀ ch ∈ pad2 n, (ch == d) = false :=
  fun ch hch => beq_eq_false_iff_ne.mpr (pad2_ne n d hd ch hch)

theorem natDigits_ne (n : Nat) (d : Char) (hd : d.toNat < 48 ∨ 57 < d.toNat) :
    ∀ ch ∈ natDigits n, ch ≠ d :=
  fun ch hch => isDigitChar_ne ch d (natDigits_digits n ch hch) hd

theorem natDigits_bne (n : Nat) (d : Char) (hd : d.toNat < 48 ∨ 57 < d.toNat) :
    ∀ ch ∈ natDigits n, (ch == d) = false :=
  fun ch hch => beq_eq_false_iff_ne.mpr (natDigits_ne n d hd ch hch)

theorem parse_renderComponent (c : component) (h : GoodComp c) :
    (if hasDots (renderComponent c) then parseRange (renderComponent c)
      else parseValue (renderComponent c)) = some c := by
  obtain ⟨f, t, r⟩ := c
  obtain ⟨hf, ht63, hr63, hft⟩ := h
  dsimp only at hf ht63 hr63 hft
  have hfi : (f : Int) < 2 ^ 63 := by exact_mod_cast hf
  have hti : (t : Int) < 2 ^ 63 := by exact_mod_cast ht63
  have hri : (r : Int) < 2 ^ 63 := by exact_mod_cast hr63
  by_cases ht : t = 0
  · subst ht
    by_cases hr : r = 0
    · subst hr
      have hrc : renderComponent ⟨f, 0, 0⟩ = pad2 f := by
        simp [renderComponent]
      rw [hrc, hasDots_false _ (pad2_ne f '.' (by decide))]
      simp only [Bool.false_eq_true, if_false]
      unfold parseValue
      rw [splitChar_none '/' (pad2 f) (pad2_bne f '/' (by decide))]
      simp only [parseGoInt_pad2 f hfi]
      rw [if_neg (by omega)]
      simp
    · have hrc : renderComponent ⟨f, 0, r⟩ = pad2 f ++ '/' :: natDigits r := by
        simp [renderComponent, hr]
      have hnd : ∀ ch ∈ pad2 f ++ '/' :: natDigits r, ch ≠ '.' := by
        intro ch hch
        rcases List.mem_append.mp hch with h1 | h2
        · exact pad2_ne f '.' (by decide) ch h1
        · rcases List.mem_cons.mp h2 with rfl | h3
          · decide
          · exact natDigits_ne r '.' (by decide) ch h3
      rw [hrc, hasDots_false _ hnd]
      simp only [Bool.false_eq_true, if_false]
      unfold parseValue
      rw [splitChar_sep '/' (pad2 f) (natDigits r) (pad2_bne f '/' (by decide)),
        splitChar_none '/' (natDigits r) (natDigits_bne r '/' (by decide))]
      simp only [joinSep, parseGoInt_pad2 f hfi, parseGoInt_natDigits r hri]
      rw [if_neg (by omega), if_neg (by omega)]
      simp
  · have hlt : f < t := hft.resolve_left ht
    by_cases hr : r = 0
    · have hrc : renderComponent ⟨f, t, r⟩ = pad2 f ++ '.' :: '.' :: pad2 t := by
        simp [renderComponent, ht, hr]
      rw [hrc, hasDots_sep (pad2 f) (pad2 t)]
      simp only [if_true]
      unfold parseRange
      have hslash : ∀ ch ∈ pad2 f ++ '.' :: '.' :: pad2 t, (ch == '/') = false := by
        intro ch hch
        rcases List.mem_append.mp hch with h1 | h2
        · exact pad2_bne f '/' (by decide) ch h1
        · rcases List.mem_cons.mp h2 with rfl | h3
          · decide
          · rcases List.mem_cons.mp h3 with rfl | h4
            · decide
            · exact pad2_bne t '/' (by decide) ch h4
      rw [splitChar_none '/' _ hslash]
      simp only [splitDots_sep (pad2 f) (pad2 t) (pad2_ne f '.' (by decide)),
        splitDots_none (pad2 t) (pad2_ne t '.' (by decide)),
        parseGoInt_pad2 f hfi, parseGoInt_pad2 t hti]
      rw [if_neg (by omega), if_neg (by omega), if_neg (by push_cast; omega)]
      simp [hr]
    · have hrc : renderComponent ⟨f, t, r⟩
          = (pad2 f ++ '.' :: '.' :: pad2 t) ++ '/' :: natDigits r := by
        simp [renderComponent, ht, hr]
      have hdots : (pad2 f ++ '.' :: '.' :: pad2 t) ++ '/' :: natDigits r
          = pad2 f ++ '.' :: '.' :: (pad2 t ++ '/' :: natDigits r) := by
        simp [List.append_assoc]
      have hslash : ∀ ch ∈ pad2 f ++ '.' :: '.' :: pad2 t, (ch == '/') = false := by
        intro ch hch
        rcases List.mem_append.mp hch with h1 | h2
        · exact pad2_bne f '/' (by decide) ch h1
        · rcases List.mem_cons.mp h2 with rfl | h3
          · decide
          · rcases List.mem_cons.mp h3 with rfl | h4
            · decide
            · exact pad2_bne t '/' (by decide) ch h4
      rw [hrc, hdots, hasDots_sep]
      simp only [if_true]
      unfold parseRange
      rw [← hdots, splitChar_sep '/' _ (natDigits r) hslash,
        splitChar_none '/' (natDigits r) (natDigits_bne r '/' (by decide))]
      simp only [splitDots_sep (pad2 f) (pad2 t) (pad2_ne f '.' (by decide)),
        splitDots_none (pad2 t) (pad2_ne t '.' (by decide)),
        joinSep, parseGoInt_pad2 f hfi, parseGoInt_pad2 t hti,
        parseGoInt_natDigits r hri]
      rw [if_neg (by omega), if_neg (by omega), if_neg (by push_cast; omega),
        if_neg (by omega)]
      simp

theorem weekdayName_facts (n : Nat) (h1 : 1 ≤ n) (h7 : n ≤ 7) :
    weekdayName n ≠ [] ∧ ∀ ch ∈ weekdayName n,
      ch ≠ '.' ∧ (ch == ',') = false ∧ (ch == '-' || ch == ':') = false ∧
        isGoSpace ch = false := by
  interval_cases n <;> exact ⟨by decide, by decide⟩

theorem weekdayNum_name (n : Nat) (h1 : 1 ≤ n) (h7 : n ≤ 7) :
    weekdayNum (weekdayName n) = some n := by
  interval_cases n <;> decide

theorem parse_renderWeekdayComponent (w : weekdayComponent) (h : GoodWd w) :
    (if hasDots (renderWeekdayComponent w) then
        parseWeekdayRange (renderWeekdayComponent w)
      else parseWeekdayValue (renderWeekdayComponent w)) = some w := by
  obtain ⟨f, t⟩ := w
  obtain ⟨h1, h7, hto⟩ := h
  dsimp only at h1 h7 hto
  by_cases ht : t = 0
  · subst ht
    have hrc : renderWeekdayComponent ⟨f, 0⟩ = weekdayName f := by
      simp [renderWeekdayComponent]
    rw [hrc,
      hasDots_false _ (fun ch hch => ((weekdayName_facts f h1 h7).2 ch hch).1)]
    simp only [Bool.false_eq_true, if_false]
    unfold parseWeekdayValue
    rw [weekdayNum_name f h1 h7]
  · rcases hto with h0 | ⟨hlt, ht7⟩
    · exact absurd h0 ht
    have ht1 : 1 ≤ t := by omega
    have hrc : renderWeekdayComponent ⟨f, t⟩
        = weekdayName f ++ '.' :: '.' :: weekdayName t := by
      simp [renderWeekdayComponent, ht]
    rw [hrc, hasDots_sep]
    simp only [if_true]
    unfold parseWeekdayRange
    simp only
      [splitDots_sep _ _ (fun ch hch => ((weekdayName_facts f h1 h7).2 ch hch).1),
      splitDots_none _ (fun ch hch => ((weekdayName_facts t ht1 ht7).2 ch hch).1),
      weekdayNum_name f h1 h7, weekdayNum_name t ht1 ht7]
    rw [if_neg (by omega)]

theorem renderWeekdayComponent_bchars (w : weekdayComponent) (h : GoodWd w) :
    ∀ ch ∈ renderWeekdayComponent w,
      (ch == ',') = false ∧ (ch == '-' || ch == ':') = false ∧
        isGoSpace ch = false := by
  obtain ⟨f, t⟩ := w
  obtain ⟨h1, h7, hto⟩ := h
  dsimp only at h1 h7 hto
  intro ch hch
  unfold renderWeekdayComponent at hch
  rcases List.mem_append.mp hch with hf | hrest
  · exact ((weekdayName_facts f h1 h7).2 ch hf).2
  · by_cases ht : t = 0
    · rw [if_pos ht] at hrest; cases hrest
    · rcases hto with h0 | ⟨hlt, ht7⟩
      · exact absurd h0 ht
      rw [if_neg ht] at hrest
      rcases List.mem_cons.mp hrest with rfl | h3
      · exact ⟨by decide, by decide, by decide⟩
      · rcases List.mem_cons.mp h3 with rfl | h4
        · exact ⟨by decide, by decide, by decide⟩
        · exact ((weekdayName_facts t (by omega) ht7).2 ch h4).2

theorem parseCompList_map (cs : List component) (h : ∀ c ∈ cs, GoodComp c) :
    parseCompList (cs.map renderComponent) = some cs := by
  induction cs with
  | nil => rfl
  | cons c rest ih =>
    simp only [List.map_cons, parseCompList,
      parse_renderComponent c (h c (by simp)),
      ih (fun x hx => h x (List.mem_cons_of_mem _ hx))]

theorem parseComponents_render (cs : List component) (h : GoodList cs) :
    parseComponents (renderComponents cs) = some cs := by
  obtain ⟨hne, hgood⟩ := h
  unfold parseComponents renderComponents
  rw [splitChar_joinSep ',' (cs.map renderComponent) (by simpa using hne)
    (fun pt hpt ch hch => by
      rcases List.mem_map.mp hpt with ⟨c, _, rfl⟩
      exact renderComponent_ne c ',' (by decide) ch hch)]
  exact parseCompList_map cs hgood

theorem parseWdList_map (ws : List weekdayComponent) (h : ∀ w ∈ ws, GoodWd w) :
    parseWdList (ws.map renderWeekdayComponent) = some ws := by
  induction ws with
  | nil => rfl
  | cons w rest ih =>
    simp only [List.map_cons, parseWdList,
      parse_renderWeekdayComponent w (h w (by simp)),
      ih (fun x hx => h x (List.mem_cons_of_mem _ hx))]

theorem parseWeekdayComponents_render (ws : List weekdayComponent)
    (hne : ws ≠ []) (h : ∀ w ∈ ws, GoodWd w) :
    parseWeekdayComponents (renderWeekdays ws) = some ws := by
  unfold parseWeekdayComponents renderWeekdays
  rw [splitChar_joinSep ',' (ws.map renderWeekdayComponent) (by simpa using hne)
    (fun pt hpt ch hch => by
      rcases List.mem_map.mp hpt with ⟨w, hw, rfl⟩
      exact ((renderWeekdayComponent_bchars w (h w hw) ch hch).1))]
  exact parseWdList_map ws h

/-! ### Rendered chunks and their separators (towards C7) -/

theorem renderComponents_chars (cs : List component) :
    ∀ ch ∈ renderComponents cs,
      isDigitChar ch = true ∨ ch = '.' ∨ ch = '/' ∨ ch = ',' := by
  unfold renderComponents
  refine joinSep_chars _ _ _ (by decide) ?_
  intro pt hpt c hc
  rcases List.mem_map.mp hpt with ⟨cc, _, rfl⟩
  rcases renderComponent_chars cc c hc with h | h | h
  · exact Or.inl h
  · exact Or.inr (Or.inl h)
  · exact Or.inr (Or.inr (Or.inl h))

theorem renderComponents_bne_dash (cs : List component) :
    ∀ ch ∈ renderComponents cs, (ch == '-') = false := by
  intro ch hch
  rcases renderComponents_chars cs ch hch with h | h | h | h
  · exact beq_eq_false_iff_ne.mpr (isDigitChar_ne ch '-' h (by decide))
  all_goals subst h; decide

theorem renderComponents_bne_colon (cs : List component) :
    ∀ ch ∈ renderComponents cs, (ch == ':') = false := by
  intro ch hch
  rcases renderComponents_chars cs ch hch with h | h | h | h
  · exact beq_eq_false_iff_ne.mpr (isDigitChar_ne ch ':' h (by decide))
  all_goals subst h; decide

theorem joinSep_ne_nil (sep : Str) (parts : List Str) (hne : parts ≠ [])
    (h : ∀ pt ∈ parts, pt ≠ []) : joinSep sep parts ≠ [] := by
  cases parts with
  | nil => cases hne rfl
  | cons a rest =>
    cases rest with
    | nil => exact h a (by simp)
    | cons b rest2 =>
      simp only [joinSep, ne_eq, List.append_assoc, List.append_eq_nil]
      intro hc
      exact h a (by simp) hc.1

theorem renderWeekdayComponent_ne_nil (w : weekdayComponent) (h : GoodWd w) :
    renderWeekdayComponent w ≠ [] := by
  obtain ⟨f, t⟩ := w
  obtain ⟨h1, h7, _⟩ := h
  dsimp only at h1 h7
  unfold renderWeekdayComponent
  simp only [ne_eq, List.append_eq_nil, not_and]
  intro hf
  exact absurd hf ((weekdayName_facts f h1 h7).1)

theorem renderWeekdays_ne_nil (ws : List weekdayComponent) (hne : ws ≠ [])
    (h : ∀ w ∈ ws, GoodWd w) : renderWeekdays ws ≠ [] :=
  joinSep_ne_nil _ _ (by simpa using hne)
    (fun pt hpt => by
      rcases List.mem_map.mp hpt with ⟨w, hw, rfl⟩
      exact renderWeekdayComponent_ne_nil w (h w hw))

theorem renderWeekdays_bchars (ws : List weekdayComponent)
    (h : ∀ w ∈ ws, GoodWd w) :
    ∀ ch ∈ renderWeekdays ws,
      (ch == '-' || ch == ':') = false ∧ isGoSpace ch = false := by
  unfold renderWeekdays
  refine joinSep_chars _ _ _ (by decide) ?_
  intro pt hpt c hc
  rcases List.mem_map.mp hpt with ⟨w, hw, rfl⟩
  exact (renderWeekdayComponent_bchars w (h w hw) c hc).2

theorem hasDashColon_renderWeekdays (ws : List weekdayComponent)
    (h : ∀ w ∈ ws, GoodWd w) : hasDashColon (renderWeekdays ws) = false := by
  unfold hasDashColon
  rw [List.any_eq_false]
  exact fun ch hch => by simp [(renderWeekdays_bchars ws h ch hch).1]

theorem hasChar_of_mem (c : Char) (s : Str) (h : c ∈ s) : hasChar c s = true := by
  unfold hasChar
  rw [List.any_eq_true]
  exact ⟨c, h, by simp⟩

theorem loadLocation_facts (tz : Str) (h : loadLocation tz = some tz) :
    tz ≠ [] ∧ ∀ c ∈ tz, isGoSpace c = false := by
  unfold loadLocation at h
  split at h
  · rename_i hc
    rcases hc with rfl | rfl | rfl | rfl | rfl <;> exact ⟨by decide, by decide⟩
  · cases h

theorem field_chars (cs all : List component) (P : Char → Prop) (hstar : P '*')
    (hcomp : ∀ ch ∈ renderComponents cs, P ch) :
    ∀ ch ∈ (if cs = all then ['*'] else renderComponents cs), P ch := by
  intro ch hch
  split at hch
  · simp only [List.mem_singleton] at hch
    subst hch
    exact hstar
  · exact hcomp ch hch

theorem renderDate_shape (e : Expression) :
    renderDate e
      = (if e.years = allYears then ['*'] else renderComponents e.years)
        ++ '-' :: ((if e.months = allMonths then ['*'] else renderComponents e.months)
          ++ '-' :: (if e.days = allDays then ['*'] else renderComponents e.days)) := by
  simp [renderDate]

theorem splitChar_renderDate (e : Expression) :
    splitChar '-' (renderDate e)
      = [(if e.years = allYears then ['*'] else renderComponents e.years),
         (if e.months = allMonths then ['*'] else renderComponents e.months),
         (if e.days = allDays then ['*'] else renderComponents e.days)] := by
  rw [renderDate_shape,
    splitChar_sep '-' _ _
      (field_chars e.years allYears _ (by decide) (renderComponents_bne_dash e.years)),
    splitChar_sep '-' _ _
      (field_chars e.months allMonths _ (by decide) (renderComponents_bne_dash e.months)),
    splitChar_none '-' _
      (field_chars e.days allDays _ (by decide) (renderComponents_bne_dash e.days))]

theorem dash_mem_renderDate (e : Expression) : '-' ∈ renderDate e := by
  rw [renderDate_shape]
  simp

theorem renderDate_not_space (e : Expression) :
    ∀ ch ∈ renderDate e, isGoSpace ch = false := by
  rw [renderDate_shape]
  intro ch hch
  rcases List.mem_append.mp hch with h1 | h2
  · exact field_chars e.years allYears _ (by decide)
      (renderComponents_not_space e.years) ch h1
  · rcases List.mem_cons.mp h2 with rfl | h3
    · decide
    · rcases List.mem_append.mp h3 with h4 | h5
      · exact field_chars e.months allMonths _ (by decide)
          (renderComponents_not_space e.months) ch h4
      · rcases List.mem_cons.mp h5 with rfl | h6
        · decide
        · exact field_chars e.days allDays _ (by decide)
            (renderComponents_not_space e.days) ch h6

theorem renderTime_shape (e : Expression) :
    renderTime e
      = (if e.hours = allHours then ['*'] else renderComponents e.hours)
        ++ ':' :: ((if e.minutes = allMinutes then ['*'] else renderComponents e.minutes)
          ++ ':' :: (if e.seconds = allSeconds then ['*'] else renderComponents e.seconds)) := by
  simp [renderTime]

theorem splitChar_renderTime (e : Expression) :
    splitChar ':' (renderTime e)
      = [(if e.hours = allHours then ['*'] else renderComponents e.hours),
         (if e.minutes = allMinutes then ['*'] else renderComponents e.minutes),
         (if e.seconds = allSeconds then ['*'] else renderComponents e.seconds)] := by
  rw [renderTime_shape,
    splitChar_sep ':' _ _
      (field_chars e.hours allHours _ (by decide) (renderComponents_bne_colon e.hours)),
    splitChar_sep ':' _ _
      (field_chars e.minutes allMinutes _ (by decide)
        (renderComponents_bne_colon e.minutes)),
    splitChar_none ':' _
      (field_chars e.seconds allSeconds _ (by decide)
        (renderComponents_bne_colon e.seconds))]

theorem colon_mem_renderTime (e : Expression) : ':' ∈ renderTime e := by
  rw [renderTime_shape]
  simp

theorem renderTime_not_space (e : Expression) :
    ∀ ch ∈ renderTime e, isGoSpace ch = false := by
  rw [renderTime_shape]
  intro ch hch
  rcases List.mem_append.mp hch with h1 | h2
  · exact field_chars e.hours allHours _ (by decide)
      (renderComponents_not_space e.hours) ch h1
  · rcases List.mem_cons.mp h2 with rfl | h3
    · decide
    · rcases List.mem_append.mp h3 with h4 | h5
      · exact field_chars e.minutes allMinutes _ (by decide)
          (renderComponents_not_space e.minutes) ch h4
      · rcases List.mem_cons.mp h5 with rfl | h6
        · decide
        · exact field_chars e.seconds allSeconds _ (by decide)
            (renderComponents_not_space e.seconds) ch h6

theorem hasDashColon_of_dash (s : Str) (h : '-' ∈ s) : hasDashColon s = true := by
  unfold hasDashColon
  rw [List.any_eq_true]
  exact ⟨'-', h, by decide⟩

/-! ### Stage lemmas for parsing a rendered expression (towards C7) -/

theorem parseWdStage_skip (e₀ : Expression) (c : Str) (rest : List Str)
    (h : hasDashColon c = true) : parseWdStage e₀ (c :: rest) = some (e₀, c :: rest) := by
  simp only [parseWdStage]
  rw [h]
  simp

theorem parseWdStage_take (e₀ : Expression) (ws : List weekdayComponent)
    (rest : List Str) (hdc : hasDashColon (renderWeekdays ws) = false)
    (hp : parseWeekdayComponents (renderWeekdays ws) = some ws) :
    parseWdStage e₀ (renderWeekdays ws :: rest)
      = some ({ e₀ with weekdays := ws }, rest) := by
  simp only [parseWdStage]
  rw [hdc]
  simp [hp]

theorem parseDateStage_take (e₀ e : Expression) (rest : List Str)
    (h0y : e₀.years = allYears) (h0m : e₀.months = allMonths)
    (h0d : e₀.days = allDays) (hys : GoodList e.years) (hms : GoodList e.months)
    (hds : GoodList e.days) :
    parseDateStage e₀ (renderDate e :: rest)
      = some ({ e₀ with years := e.years, months := e.months, days := e.days },
          rest) := by
  have hy : (if ¬e.years = allYears → renderComponents e.years = ['*']
        then some e₀.years
      else parseComponents (if e.years = allYears then ['*']
        else renderComponents e.years)) = some e.years := by
    by_cases hq : e.years = allYears
    · rw [if_pos (fun hn => absurd hq hn), h0y, hq]
    · rw [if_neg (fun himp => renderComponents_ne_star e.years (himp hq)),
        if_neg hq]
      exact parseComponents_render e.years hys
  have hm : (if ¬e.months = allMonths → renderComponents e.months = ['*']
        then some e₀.months
      else parseComponents (if e.months = allMonths then ['*']
        else renderComponents e.months)) = some e.months := by
    by_cases hq : e.months = allMonths
    · rw [if_pos (fun hn => absurd hq hn), h0m, hq]
    · rw [if_neg (fun himp => renderComponents_ne_star e.months (himp hq)),
        if_neg hq]
      exact parseComponents_render e.months hms
  have hd : (if ¬e.days = allDays → renderComponents e.days = ['*']
        then some e₀.days
      else parseComponents (if e.days = allDays then ['*']
        else renderComponents e.days)) = some e.days := by
    by_cases hq : e.days = allDays
    · rw [if_pos (fun hn => absurd hq hn), h0d, hq]
    · rw [if_neg (fun himp => renderComponents_ne_star e.days (himp hq)),
        if_neg hq]
      exact parseComponents_render e.days hds
  simp only [parseDateStage]
  rw [hasChar_of_mem '-' (renderDate e) (dash_mem_renderDate e)]
  simp only [if_true, splitChar_renderDate e, List.length_cons, List.length_nil]
  norm_num
  simp only [hy, hm, hd]

theorem parseTimeStage_take (e₀ e : Expression) (rest : List Str)
    (hhs : GoodList e.hours) (hmins : GoodList e.minutes)
    (hss : GoodList e.seconds) :
    parseTimeStage e₀ (renderTime e :: rest)
      = some
        ({ e₀ with hours := e.hours, minutes := e.minutes, seconds := e.seconds },
          rest) := by
  have hh : (if ¬e.hours = allHours → renderComponents e.hours = ['*']
        then some allHours
      else parseComponents (if e.hours = allHours then ['*']
        else renderComponents e.hours)) = some e.hours := by
    by_cases hq : e.hours = allHours
    · rw [if_pos (fun hn => absurd hq hn), hq]
    · rw [if_neg (fun himp => renderComponents_ne_star e.hours (himp hq)),
        if_neg hq]
      exact parseComponents_render e.hours hhs
  have hm : (if ¬e.minutes = allMinutes → renderComponents e.minutes = ['*']
        then some allMinutes
      else parseComponents (if e.minutes = allMinutes then ['*']
        else renderComponents e.minutes)) = some e.minutes := by
    by_cases hq : e.minutes = allMinutes
    · rw [if_pos (fun hn => absurd hq hn), hq]
    · rw [if_neg (fun himp => renderComponents_ne_star e.minutes (himp hq)),
        if_neg hq]
      exact parseComponents_render e.minutes hmins
  have hs : (if ¬e.seconds = allSeconds → renderComponents e.seconds = ['*']
        then some allSeconds
      else parseComponents (if e.seconds = allSeconds then ['*']
        else renderComponents e.seconds)) = some e.seconds := by
    by_cases hq : e.seconds = allSeconds
    · rw [if_pos (fun hn => absurd hq hn), hq]
    · rw [if_neg (fun himp => renderComponents_ne_star e.seconds (himp hq)),
        if_neg hq]
      exact parseComponents_render e.seconds hss
  simp only [parseTimeStage]
  rw [hasChar_of_mem ':' (renderTime e) (colon_mem_renderTime e)]
  simp only [if_true, splitChar_renderTime e, List.length_cons, List.length_nil]
  norm_num
  simp only [hh, hm, hs]

theorem parseTZStage_some (e₀ : Expression) (tz : Str)
    (h : loadLocation tz = some tz) :
    parseTZStage e₀ [tz] = some { e₀ with timezone := tz } := by
  simp only [parseTZStage]
  rw [h]
  simp

theorem ParseE_renderE (e : Expression) (h : GoodExp e) :
    ParseE (renderE e) = some e := by
  obtain ⟨⟨hwne, hwgood⟩, hys, hms, hds, hhs, hmins, hss, htz⟩ := h
  have hwdcs : hasDashColon (renderDate e) = true :=
    hasDashColon_of_dash _ (dash_mem_renderDate e)
  have hchunks : goFields (renderE e) = renderChunks e := by
    apply goFields_chunks
    · simp [renderChunks]
    · intro ck hck
      unfold renderChunks at hck
      rcases List.mem_append.mp hck with h1 | h2
      · rcases List.mem_append.mp h1 with h1a | h1b
        · by_cases hwd : e.weekdays = allWeekdays
          · rw [if_pos hwd] at h1a; cases h1a
          · rw [if_neg hwd] at h1a
            simp only [List.mem_singleton] at h1a
            subst h1a
            exact ⟨renderWeekdays_ne_nil _ hwne hwgood,
              fun c hc => (renderWeekdays_bchars _ hwgood c hc).2⟩
        · rcases List.mem_cons.mp h1b with rfl | h1c
          · exact ⟨List.ne_nil_of_mem (dash_mem_renderDate e), renderDate_not_space e⟩
          · rcases List.mem_cons.mp h1c with rfl | h1d
            · exact ⟨List.ne_nil_of_mem (colon_mem_renderTime e),
                renderTime_not_space e⟩
            · cases h1d
      · by_cases htzl : e.timezone = localName
        · rw [if_pos htzl] at h2; cases h2
        · rw [if_neg htzl] at h2
          simp only [List.mem_singleton] at h2
          subst h2
          exact ⟨(loadLocation_facts _ htz).1, (loadLocation_facts _ htz).2⟩
  have hpt : ∀ (e₀ : Expression) (rest : List Str),
      parseTimeStage e₀ (renderTime e :: rest)
        = some
          ({ e₀ with hours := e.hours, minutes := e.minutes, seconds := e.seconds },
            rest) :=
    fun e₀ rest => parseTimeStage_take e₀ e rest hhs hmins hss
  have hptz : ∀ e₀ : Expression, parseTZStage e₀ [e.timezone]
      = some { e₀ with timezone := e.timezone } :=
    fun e₀ => parseTZStage_some e₀ e.timezone htz
  unfold ParseE
  rw [hchunks]
  by_cases hwd : e.weekdays = allWeekdays <;>
    by_cases htzl : e.timezone = localName
  · have hrc : renderChunks e = [renderDate e, renderTime e] := by
      simp [renderChunks, hwd, htzl]
    rw [hrc, if_neg (by simp), if_neg (by simp)]
    simp only [parseWdStage_skip defaultExpression (renderDate e) [renderTime e] hwdcs]
    simp only [parseDateStage_take defaultExpression e [renderTime e] rfl rfl rfl
      hys hms hds]
    simp only [hpt]
    simp only [parseTZStage]
    have hw' : defaultExpression.weekdays = e.weekdays := by rw [hwd]; rfl
    have ht' : defaultExpression.timezone = e.timezone := by rw [htzl]; rfl
    rw [hw', ht']
  · have hrc : renderChunks e = [renderDate e, renderTime e, e.timezone] := by
      simp [renderChunks, hwd, htzl]
    rw [hrc, if_neg (by simp), if_neg (by simp)]
    simp only [parseWdStage_skip defaultExpression (renderDate e)
      [renderTime e, e.timezone] hwdcs]
    simp only [parseDateStage_take defaultExpression e [renderTime e, e.timezone]
      rfl rfl rfl hys hms hds]
    simp only [hpt]
    simp only [hptz]
    have hw' : defaultExpression.weekdays = e.weekdays := by rw [hwd]; rfl
    rw [hw']
  · have hrc : renderChunks e = [renderWeekdays e.weekdays, renderDate e, renderTime e] := by
      simp [renderChunks, hwd, htzl]
    rw [hrc, if_neg (by simp), if_neg (by simp)]
    simp only [parseWdStage_take defaultExpression e.weekdays
      [renderDate e, renderTime e] (hasDashColon_renderWeekdays _ hwgood)
      (parseWeekdayComponents_render _ hwne hwgood)]
    simp only [parseDateStage_take { defaultExpression with weekdays := e.weekdays }
      e [renderTime e] rfl rfl rfl hys hms hds]
    simp only [hpt]
    simp only [parseTZStage]
    have ht' : defaultExpression.timezone = e.timezone := by rw [htzl]; rfl
    rw [ht']
  · have hrc : renderChunks e
        = [renderWeekdays e.weekdays, renderDate e, renderTime e, e.timezone] := by
      simp [renderChunks, hwd, htzl]
    rw [hrc, if_neg (by simp), if_neg (by simp)]
    simp only [parseWdStage_take defaultExpression e.weekdays
      [renderDate e, renderTime e, e.timezone]
      (hasDashColon_renderWeekdays _ hwgood)
      (parseWeekdayComponents_render _ hwne hwgood)]
    simp only [parseDateStage_take { defaultExpression with weekdays := e.weekdays }
      e [renderTime e, e.timezone] rfl rfl rfl hys hms hds]
    simp only [hpt]
    simp only [hptz]

/-! ### Shape of parse results (towards C7 and C9) -/

theorem parseGoInt_bound (s : Str) (n : Int) (h : parseGoInt s = some n)
    (hn : 0 ≤ n) : n < 2 ^ 63 := by
  have h63 : ((2 : Int) ^ 63) = 9223372036854775808 := by norm_num
  rw [h63]
  unfold parseGoInt at h
  cases s with
  | nil => cases h
  | cons c rest =>
    dsimp only at h
    by_cases h1 : c = '-'
    · rw [if_pos h1] at h
      cases hp : parseDigits rest with
      | none => rw [hp] at h; cases h
      | some m =>
        rw [hp] at h
        dsimp only at h
        by_cases h2 : (m : Int) ≤ 2 ^ 63
        · rw [if_pos h2] at h
          rw [Option.some.injEq] at h
          rw [h63] at h2
          omega
        · rw [if_neg h2] at h; cases h
    · rw [if_neg h1] at h
      by_cases h2 : c = '+'
      · rw [if_pos h2] at h
        cases hp : parseDigits rest with
        | none => rw [hp] at h; cases h
        | some m =>
          rw [hp] at h
          dsimp only at h
          by_cases h3 : (m : Int) < 2 ^ 63
          · rw [if_pos h3] at h
            rw [Option.some.injEq] at h
            rw [h63] at h3
            omega
          · rw [if_neg h3] at h; cases h
      · rw [if_neg h2] at h
        cases hp : parseDigits (c :: rest) with
        | none => rw [hp] at h; cases h
        | some m =>
          rw [hp] at h
          dsimp only at h
          by_cases h3 : (m : Int) < 2 ^ 63
          · rw [if_pos h3] at h
            rw [Option.some.injEq] at h
            rw [h63] at h3
            omega
          · rw [if_neg h3] at h; cases h

theorem parseValue_good (raw : Str) (c : component) (h : parseValue raw = some c) :
    GoodComp c ∧ c.To = 0 := by
  have h63 : ((2 : Int) ^ 63) = 9223372036854775808 := by norm_num
  have h63n : ((2 : Nat) ^ 63) = 9223372036854775808 := by norm_num
  unfold parseValue at h
  cases hsp : splitChar '/' raw with
  | nil => rw [hsp] at h; cases h
  | cons v rest =>
    rw [hsp] at h
    cases rest with
    | nil =>
      dsimp only at h
      cases hpg : parseGoInt v with
      | none => rw [hpg] at h; cases h
      | some n =>
        rw [hpg] at h
        dsimp only at h
        by_cases hneg : n < 0
        · rw [if_pos hneg] at h; cases h
        · rw [if_neg hneg] at h
          injection h with h2
          subst h2
          have hb := parseGoInt_bound v n hpg (by omega)
          rw [h63] at hb
          refine ⟨⟨?_, by norm_num, by norm_num, Or.inl rfl⟩, rfl⟩
          dsimp only
          rw [h63n]
          omega
    | cons r2 rest2 =>
      dsimp only at h
      cases hpg : parseGoInt v with
      | none => rw [hpg] at h; cases h
      | some n =>
        rw [hpg] at h
        dsimp only at h
        by_cases hneg : n < 0
        · rw [if_pos hneg] at h; cases h
        · rw [if_neg hneg] at h
          cases hpr : parseGoInt (joinSep ['/'] (r2 :: rest2)) with
          | none => rw [hpr] at h; cases h
          | some r =>
            rw [hpr] at h
            dsimp only at h
            by_cases hrneg : r < 0
            · rw [if_pos hrneg] at h; cases h
            · rw [if_neg hrneg] at h
              injection h with h2
              subst h2
              have hb := parseGoInt_bound v n hpg (by omega)
              have hbr := parseGoInt_bound _ r hpr (by omega)
              rw [h63] at hb hbr
              refine ⟨⟨?_, by norm_num, ?_, Or.inl rfl⟩, rfl⟩
              · dsimp only; rw [h63n]; omega
              · dsimp only; rw [h63n]; omega

theorem parseRange_good (raw : Str) (c : component) (h : parseRange raw = some c) :
    GoodComp c ∧ c.From < c.To := by
  have h63 : ((2 : Int) ^ 63) = 9223372036854775808 := by norm_num
  have h63n : ((2 : Nat) ^ 63) = 9223372036854775808 := by norm_num
  unfold parseRange at h
  cases hsp : splitChar '/' raw with
  | nil => rw [hsp] at h; cases h
  | cons core rest =>
    rw [hsp] at h
    dsimp only at h
    cases hsd : splitDots core with
    | nil => rw [hsd] at h; cases h
    | cons a bs =>
      rw [hsd] at h
      cases bs with
      | nil => dsimp only at h; cases h
      | cons b bs2 =>
        cases bs2 with
        | cons x xs => dsimp only at h; cases h
        | nil =>
          dsimp only at h
          cases hpa : parseGoInt a with
          | none => rw [hpa] at h; cases h
          | some lo =>
            rw [hpa] at h
            dsimp only at h
            by_cases hlo : lo < 0
            · rw [if_pos hlo] at h; cases h
            · rw [if_neg hlo] at h
              cases hpb : parseGoInt b with
              | none => rw [hpb] at h; cases h
              | some hi =>
                rw [hpb] at h
                dsimp only at h
                by_cases hhi : hi < 0
                · rw [if_pos hhi] at h; cases h
                · rw [if_neg hhi] at h
                  by_cases hle : hi ≤ lo
                  · rw [if_pos hle] at h; cases h
                  · rw [if_neg hle] at h
                    have hblo := parseGoInt_bound a lo hpa (by omega)
                    have hbhi := parseGoInt_bound b hi hpb (by omega)
                    rw [h63] at hblo hbhi
                    cases rest with
                    | nil =>
                      injection h with h2
                      subst h2
                      refine ⟨⟨?_, ?_, by norm_num, Or.inr ?_⟩, ?_⟩ <;>
                        (dsimp only; (try rw [h63n])) <;> omega
                    | cons r2 rest2 =>
                      cases hpr : parseGoInt (joinSep ['/'] (r2 :: rest2)) with
                      | none => rw [hpr] at h; cases h
                      | some r =>
                        rw [hpr] at h
                        dsimp only at h
                        by_cases hrneg : r < 0
                        · rw [if_pos hrneg] at h; cases h
                        · rw [if_neg hrneg] at h
                          injection h with h2
                          subst h2
                          have hbr := parseGoInt_bound _ r hpr (by omega)
                          rw [h63] at hbr
                          refine ⟨⟨?_, ?_, ?_, Or.inr ?_⟩, ?_⟩ <;>
                            (dsimp only; (try rw [h63n])) <;> omega

theorem weekdayNum_bound (s : Str) (v : Nat) (h : weekdayNum s = some v) :
    1 ≤ v ∧ v ≤ 7 := by
  unfold weekdayNum at h
  repeat' split at h
  all_goals first
    | (injection h with h1; omega)
    | cases h

theorem parseWeekdayValue_good (raw : Str) (w : weekdayComponent)
    (h : parseWeekdayValue raw = some w) : GoodWd w := by
  unfold parseWeekdayValue at h
  cases hw : weekdayNum raw with
  | none => rw [hw] at h; cases h
  | some v =>
    rw [hw] at h
    dsimp only at h
    injection h with h1
    subst h1
    have hb := weekdayNum_bound raw v hw
    exact ⟨hb.1, hb.2, Or.inl rfl⟩

theorem parseWeekdayRange_good (raw : Str) (w : weekdayComponent)
    (h : parseWeekdayRange raw = some w) : GoodWd w := by
  unfold parseWeekdayRange at h
  cases hsd : splitDots raw with
  | nil => rw [hsd] at h; cases h
  | cons a bs =>
    rw [hsd] at h
    cases bs with
    | nil => dsimp only at h; cases h
    | cons b bs2 =>
      cases bs2 with
      | cons x xs => dsimp only at h; cases h
      | nil =>
        dsimp only at h
        cases ha : weekdayNum a with
        | none => rw [ha] at h; cases h
        | some lo =>
          rw [ha] at h
          dsimp only at h
          cases hb : weekdayNum b with
          | none => rw [hb] at h; cases h
          | some hi =>
            rw [hb] at h
            dsimp only at h
            by_cases hle : hi ≤ lo
            · rw [if_pos hle] at h; cases h
            · rw [if_neg hle] at h
              injection h with h1
              subst h1
              have hba := weekdayNum_bound a lo ha
              have hbb := weekdayNum_bound b hi hb
              exact ⟨hba.1, hba.2, Or.inr ⟨show lo < hi by omega, hbb.2⟩⟩

theorem parseCompList_good (ls : List Str) (cs : List component)
    (h : parseCompList ls = some cs) : ∀ c ∈ cs, GoodComp c := by
  induction ls generalizing cs with
  | nil =>
    injection h with h1
    subst h1
    simp
  | cons chunk rest ih =>
    simp only [parseCompList] at h
    cases hp : (if hasDots chunk then parseRange chunk else parseValue chunk) with
    | none => rw [hp] at h; cases h
    | some c1 =>
      rw [hp] at h
      cases hr : parseCompList rest with
      | none => rw [hr] at h; cases h
      | some cs1 =>
        rw [hr] at h
        dsimp only at h
        injection h with h2
        subst h2
        intro c hc
        rcases List.mem_cons.mp hc with rfl | hmem
        · by_cases hd : hasDots chunk = true
          · rw [if_pos hd] at hp
            exact (parseRange_good chunk c hp).1
          · rw [if_neg hd] at hp
            exact (parseValue_good chunk c hp).1
        · exact ih cs1 hr c hmem

theorem parseComponents_good (raw : Str) (cs : List component)
    (h : parseComponents raw = some cs) : GoodList cs := by
  unfold parseComponents at h
  constructor
  · cases hsp : splitChar ',' raw with
    | nil => exact absurd hsp (splitPred_ne_nil _ _)
    | cons a rest =>
      rw [hsp] at h
      simp only [parseCompList] at h
      cases hp : (if hasDots a then parseRange a else parseValue a) with
      | none => rw [hp] at h; cases h
      | some c1 =>
        rw [hp] at h
        cases hr : parseCompList rest with
        | none => rw [hr] at h; cases h
        | some cs1 =>
          rw [hr] at h
          dsimp only at h
          injection h with h2
          subst h2
          simp
  · exact parseCompList_good _ cs h

theorem parseWdList_good (ls : List Str) (ws : List weekdayComponent)
    (h : parseWdList ls = some ws) : ∀ w ∈ ws, GoodWd w := by
  induction ls generalizing ws with
  | nil =>
    injection h with h1
    subst h1
    simp
  | cons chunk rest ih =>
    simp only [parseWdList] at h
    cases hp : (if hasDots chunk then parseWeekdayRange chunk
        else parseWeekdayValue chunk) with
    | none => rw [hp] at h; cases h
    | some w1 =>
      rw [hp] at h
      cases hr : parseWdList rest with
      | none => rw [hr] at h; cases h
      | some ws1 =>
        rw [hr] at h
        dsimp only at h
        injection h with h2
        subst h2
        intro w hw
        rcases List.mem_cons.mp hw with rfl | hmem
        · by_cases hd : hasDots chunk = true
          · rw [if_pos hd] at hp
            exact parseWeekdayRange_good chunk w hp
          · rw [if_neg hd] at hp
            exact parseWeekdayValue_good chunk w hp
        · exact ih ws1 hr w hmem

theorem parseWeekdayComponents_good (raw : Str) (ws : List weekdayComponent)
    (h : parseWeekdayComponents raw = some ws) :
    ws ≠ [] ∧ ∀ w ∈ ws, GoodWd w := by
  unfold parseWeekdayComponents at h
  constructor
  · cases hsp : splitChar ',' raw with
    | nil => exact absurd hsp (splitPred_ne_nil _ _)
    | cons a rest =>
      rw [hsp] at h
      simp only [parseWdList] at h
      cases hp : (if hasDots a then parseWeekdayRange a else parseWeekdayValue a) with
      | none => rw [hp] at h; cases h
      | some w1 =>
        rw [hp] at h
        cases hr : parseWdList rest with
        | none => rw [hr] at h; cases h
        | some ws1 =>
          rw [hr] at h
          dsimp only at h
          injection h with h2
          subst h2
          simp
  · exact parseWdList_good _ ws h

theorem loadLocation_out (c tz : Str) (h : loadLocation c = some tz) :
    loadLocation tz = some tz := by
  unfold loadLocation at h ⊢
  split at h
  · rename_i hc
    injection h with h1
    subst h1
    rw [if_pos hc]
  · cases h

theorem parseWdStage_spec (e₀ : Expression) (cs : List Str) (e₁ : Expression)
    (rest : List Str) (h : parseWdStage e₀ cs = some (e₁, rest)) :
    (e₁.weekdays = e₀.weekdays
        ∨ ∃ raw, parseWeekdayComponents raw = some e₁.weekdays) ∧
      e₁.years = e₀.years ∧ e₁.months = e₀.months ∧ e₁.days = e₀.days ∧
      e₁.hours = e₀.hours ∧ e₁.minutes = e₀.minutes ∧ e₁.seconds = e₀.seconds ∧
      e₁.timezone = e₀.timezone := by
  unfold parseWdStage at h
  cases cs with
  | nil =>
    dsimp only at h
    injection h with h1
    injection h1 with ha hb
    subst ha
    exact ⟨Or.inl rfl, rfl, rfl, rfl, rfl, rfl, rfl, rfl⟩
  | cons c crest =>
    dsimp only at h
    by_cases hdc : hasDashColon c = false
    · rw [if_pos hdc] at h
      cases hp : parseWeekdayComponents c with
      | none => rw [hp] at h; cases h
      | some w =>
        rw [hp] at h
        dsimp only at h
        injection h with h1
        injection h1 with ha hb
        subst ha
        exact ⟨Or.inr ⟨c, hp⟩, rfl, rfl, rfl, rfl, rfl, rfl, rfl⟩
    · rw [if_neg hdc] at h
      injection h with h1
      injection h1 with ha hb
      subst ha
      exact ⟨Or.inl rfl, rfl, rfl, rfl, rfl, rfl, rfl, rfl⟩

theorem parseDateStage_spec (e₁ : Expression) (cs : List Str) (e₂ : Expression)
    (rest : List Str) (h : parseDateStage e₁ cs = some (e₂, rest)) :
    e₂.weekdays = e₁.weekdays ∧
      (e₂.years = e₁.years ∨ ∃ raw, parseComponents raw = some e₂.years) ∧
      (e₂.months = e₁.months ∨ ∃ raw, parseComponents raw = some e₂.months) ∧
      (e₂.days = e₁.days ∨ ∃ raw, parseComponents raw = some e₂.days) ∧
      e₂.hours = e₁.hours ∧ e₂.minutes = e₁.minutes ∧ e₂.seconds = e₁.seconds ∧
      e₂.timezone = e₁.timezone := by
  unfold parseDateStage at h
  cases cs with
  | nil =>
    dsimp only at h
    injection h with h1
    injection h1 with ha hb
    subst ha
    exact ⟨rfl, Or.inl rfl, Or.inl rfl, Or.inl rfl, rfl, rfl, rfl, rfl⟩
  | cons c crest =>
    dsimp only at h
    by_cases hdash : hasChar '-' c = true
    · rw [if_pos hdash] at h
      by_cases hlen : 3 < (splitChar '-' c).length
      · rw [if_pos hlen] at h; cases h
      · rw [if_neg hlen] at h
        cases hparts : (if (splitChar '-' c).length = 2 then ['*'] :: splitChar '-' c
            else splitChar '-' c) with
        | nil => rw [hparts] at h; cases h
        | cons py ps =>
          rw [hparts] at h
          cases ps with
          | nil => dsimp only at h; cases h
          | cons pm ps2 =>
            cases ps2 with
            | nil => dsimp only at h; cases h
            | cons pd ps3 =>
              cases ps3 with
              | cons z zs => dsimp only at h; cases h
              | nil =>
                dsimp only at h
                cases hy : (if py = ['*'] then some e₁.years
                    else parseComponents py) with
                | none => rw [hy] at h; cases h
                | some ys =>
                  rw [hy] at h
                  dsimp only at h
                  cases hm : (if pm = ['*'] then some e₁.months
                      else parseComponents pm) with
                  | none => rw [hm] at h; cases h
                  | some ms =>
                    rw [hm] at h
                    dsimp only at h
                    cases hd : (if pd = ['*'] then some e₁.days
                        else parseComponents pd) with
                    | none => rw [hd] at h; cases h
                    | some ds =>
                      rw [hd] at h
                      dsimp only at h
                      injection h with h1
                      injection h1 with ha hb
                      subst ha
                      refine ⟨rfl, ?_, ?_, ?_, rfl, rfl, rfl, rfl⟩
                      · by_cases hpy : py = ['*']
                        · rw [if_pos hpy] at hy
                          injection hy with hy2
                          exact Or.inl hy2.symm
                        · rw [if_neg hpy] at hy
                          exact Or.inr ⟨py, hy⟩
                      · by_cases hpm : pm = ['*']
                        · rw [if_pos hpm] at hm
                          injection hm with hm2
                          exact Or.inl hm2.symm
                        · rw [if_neg hpm] at hm
                          exact Or.inr ⟨pm, hm⟩
                      · by_cases hpd : pd = ['*']
                        · rw [if_pos hpd] at hd
                          injection hd with hd2
                          exact Or.inl hd2.symm
                        · rw [if_neg hpd] at hd
                          exact Or.inr ⟨pd, hd⟩
    · rw [if_neg hdash] at h
      injection h with h1
      injection h1 with ha hb
      subst ha
      exact ⟨rfl, Or.inl rfl, Or.inl rfl, Or.inl rfl, rfl, rfl, rfl, rfl⟩

theorem parseTimeStage_spec (e₂ : Expression) (cs : List Str) (e₃ : Expression)
    (rest : List Str) (h : parseTimeStage e₂ cs = some (e₃, rest)) :
    e₃.weekdays = e₂.weekdays ∧ e₃.years = e₂.years ∧ e₃.months = e₂.months ∧
      e₃.days = e₂.days ∧
      (e₃.hours = e₂.hours ∨ e₃.hours = allHours
        ∨ ∃ raw, parseComponents raw = some e₃.hours) ∧
      (e₃.minutes = e₂.minutes ∨ e₃.minutes = allMinutes
        ∨ ∃ raw, parseComponents raw = some e₃.minutes) ∧
      (e₃.seconds = e₂.seconds ∨ e₃.seconds = allSeconds
        ∨ ∃ raw, parseComponents raw = some e₃.seconds) ∧
      e₃.timezone = e₂.timezone := by
  unfold parseTimeStage at h
  cases cs with
  | nil =>
    dsimp only at h
    injection h with h1
    injection h1 with ha hb
    subst ha
    exact ⟨rfl, rfl, rfl, rfl, Or.inl rfl, Or.inl rfl, Or.inl rfl, rfl⟩
  | cons c crest =>
    dsimp only at h
    by_cases hcol : hasChar ':' c = true
    · rw [if_pos hcol] at h
      by_cases hlen : 3 < (splitChar ':' c).length
      · rw [if_pos hlen] at h; cases h
      · rw [if_neg hlen] at h
        cases hparts : (if (splitChar ':' c).length = 2
            then splitChar ':' c ++ [[ '0', '0' ]] else splitChar ':' c) with
        | nil => rw [hparts] at h; cases h
        | cons ph ps =>
          rw [hparts] at h
          cases ps with
          | nil => dsimp only at h; cases h
          | cons pm ps2 =>
            cases ps2 with
            | nil => dsimp only at h; cases h
            | cons psec ps3 =>
              cases ps3 with
              | cons z zs => dsimp only at h; cases h
              | nil =>
                dsimp only at h
                cases hh : (if ph = ['*'] then some allHours
                    else parseComponents ph) with
                | none => rw [hh] at h; cases h
                | some hs =>
                  rw [hh] at h
                  dsimp only at h
                  cases hm : (if pm = ['*'] then some allMinutes
                      else parseComponents pm) with
                  | none => rw [hm] at h; cases h
                  | some ms =>
                    rw [hm] at h
                    dsimp only at h
                    cases hsec : (if psec = ['*'] then some allSeconds
                        else parseComponents psec) with
                    | none => rw [hsec] at h; cases h
                    | some ss =>
                      rw [hsec] at h
                      dsimp only at h
                      injection h with h1
                      injection h1 with ha hb
                      subst ha
                      refine ⟨rfl, rfl, rfl, rfl, ?_, ?_, ?_, rfl⟩
                      · by_cases hq : ph = ['*']
                        · rw [if_pos hq] at hh
                          injection hh with hh2
                          exact Or.inr (Or.inl hh2.symm)
                        · rw [if_neg hq] at hh
                          exact Or.inr (Or.inr ⟨ph, hh⟩)
                      · by_cases hq : pm = ['*']
                        · rw [if_pos hq] at hm
                          injection hm with hm2
                          exact Or.inr (Or.inl hm2.symm)
                        · rw [if_neg hq] at hm
                          exact Or.inr (Or.inr ⟨pm, hm⟩)
                      · by_cases hq : psec = ['*']
                        · rw [if_pos hq] at hsec
                          injection hsec with hs2
                          exact Or.inr (Or.inl hs2.symm)
                        · rw [if_neg hq] at hsec
                          exact Or.inr (Or.inr ⟨psec, hsec⟩)
    · rw [if_neg hcol] at h
      injection h with h1
      injection h1 with ha hb
      subst ha
      exact ⟨rfl, rfl, rfl, rfl, Or.inl rfl, Or.inl rfl, Or.inl rfl, rfl⟩

theorem parseTZStage_spec (e₃ : Expression) (cs : List Str) (e₄ : Expression)
    (h : parseTZStage e₃ cs = some e₄) :
    e₄.weekdays = e₃.weekdays ∧ e₄.years = e₃.years ∧ e₄.months = e₃.months ∧
      e₄.days = e₃.days ∧ e₄.hours = e₃.hours ∧ e₄.minutes = e₃.minutes ∧
      e₄.seconds = e₃.seconds ∧
      (e₄.timezone = e₃.timezone
        ∨ loadLocation e₄.timezone = some e₄.timezone) := by
  unfold parseTZStage at h
  cases cs with
  | nil =>
    dsimp only at h
    injection h with h1
    subst h1
    exact ⟨rfl, rfl, rfl, rfl, rfl, rfl, rfl, Or.inl rfl⟩
  | cons c crest =>
    dsimp only at h
    cases hl : loadLocation c with
    | none => rw [hl] at h; cases h
    | some tz =>
      rw [hl] at h
      dsimp only at h
      by_cases hrest : crest = []
      · rw [if_pos hrest] at h
        injection h with h1
        subst h1
        exact ⟨rfl, rfl, rfl, rfl, rfl, rfl, rfl,
          Or.inr (loadLocation_out c tz hl)⟩
      · rw [if_neg hrest] at h; cases h

theorem ParseE_good (raw : Str) (e : Expression) (h : ParseE raw = some e) :
    GoodExp e := by
  unfold ParseE at h
  by_cases h0 : (goFields raw).length = 0
  · rw [if_pos h0] at h; cases h
  · rw [if_neg h0] at h
    by_cases h4 : 4 < (goFields raw).length
    · rw [if_pos h4] at h; cases h
    · rw [if_neg h4] at h
      cases h1 : parseWdStage defaultExpression (goFields raw) with
      | none => rw [h1] at h; cases h
      | some p1 =>
        obtain ⟨e₁, cs₁⟩ := p1
        rw [h1] at h
        dsimp only at h
        cases h2 : parseDateStage e₁ cs₁ with
        | none => rw [h2] at h; cases h
        | some p2 =>
          obtain ⟨e₂, cs₂⟩ := p2
          rw [h2] at h
          dsimp only at h
          cases h3 : parseTimeStage e₂ cs₂ with
          | none => rw [h3] at h; cases h
          | some p3 =>
            obtain ⟨e₃, cs₃⟩ := p3
            rw [h3] at h
            dsimp only at h
            obtain ⟨w1, y1, m1, d1, hh1, mi1, se1, tzz1⟩ :=
              parseWdStage_spec _ _ _ _ h1
            obtain ⟨w2, y2, m2, d2, hh2, mi2, se2, tzz2⟩ :=
              parseDateStage_spec _ _ _ _ h2
            obtain ⟨w3, y3, m3, d3, hh3, mi3, se3, tzz3⟩ :=
              parseTimeStage_spec _ _ _ _ h3
            obtain ⟨w4, y4, m4, d4, hh4, mi4, se4, tzz4⟩ :=
              parseTZStage_spec _ _ _ h
            refine ⟨?_, ?_, ?_, ?_, ?_, ?_, ?_, ?_⟩
            · rw [w4, w3, w2]
              rcases w1 with hw | ⟨rawx, hp⟩
              · rw [hw]; exact ⟨by decide, by decide⟩
              · exact parseWeekdayComponents_good rawx _ hp
            · rw [y4, y3]
              rcases y2 with hy | ⟨rawx, hp⟩
              · rw [hy, y1]; decide
              · exact parseComponents_good rawx _ hp
            · rw [m4, m3]
              rcases m2 with hm | ⟨rawx, hp⟩
              · rw [hm, m1]; decide
              · exact parseComponents_good rawx _ hp
            · rw [d4, d3]
              rcases d2 with hd | ⟨rawx, hp⟩
              · rw [hd, d1]; decide
              · exact parseComponents_good rawx _ hp
            · rw [hh4]
              rcases hh3 with hha | hha | ⟨rawx, hp⟩
              · rw [hha, hh2, hh1]; decide
              · rw [hha]; decide
              · exact parseComponents_good rawx _ hp
            · rw [mi4]
              rcases mi3 with hma | hma | ⟨rawx, hp⟩
              · rw [hma, mi2, mi1]; decide
              · rw [hma]; decide
              · exact parseComponents_good rawx _ hp
            · rw [se4]
              rcases se3 with hsa | hsa | ⟨rawx, hp⟩
              · rw [hsa, se2, se1]; decide
              · rw [hsa]; decide
              · exact parseComponents_good rawx _ hp
            · rcases tzz4 with htza | htza
              · rw [htza, tzz3, tzz2, tzz1]; decide
              · exact htza

/-- C7: for every expression obtained from a successful parse, parsing the
canonical rendering succeeds — in fact it returns the same expression — and
therefore re-rendering reproduces the same text
(`render(parse(render(e))) = render(e)`). -/
theorem c7_roundtrip (raw : Str) (e : Expression) (h : ParseE raw = some e) :
    ParseE (renderE e) = some e ∧
      ∀ e' : Expression, ParseE (renderE e) = some e' →
        renderE e' = renderE e := by
  have hr := ParseE_renderE e (ParseE_good raw e h)
  refine ⟨hr, fun e' h' => ?_⟩
  rw [hr] at h'
  injection h' with h2
  rw [h2]

/-- C7 witness: the round-trip at the parse of
`"Mon 2006-01-02 15:04:05 Europe/Paris"`. -/
theorem c7_roundtrip_witness :
    ParseE (renderE expParis) = some expParis ∧
      ∀ e' : Expression, ParseE (renderE expParis) = some e' →
        renderE e' = renderE expParis :=
  c7_roundtrip (("Mon 2006-01-02 15:04:05 Europe/Paris").toList) expParis
    (by decide)

/-- C9: the claimed field bounds are not enforced by `Parse` — the text
`"*-13-* 0:0:0"` parses successfully although its month value 13 is
outside `[1, 12]`. -/
theorem c9_counterexample :
    ParseE (("*-13-* 0:0:0").toList)
        = some { defaultExpression with months := [⟨13, 0, 0⟩] } ∧
      ¬ ∀ c ∈ ({ defaultExpression with
          months := [⟨13, 0, 0⟩] } : Expression).months, c.From ≤ 12 :=
  ⟨by decide, by decide⟩

/-- C9 (amended): what `Parse` actually guarantees about every expression
it returns: weekday values come from the table (1 to 7, ranges strictly
increasing and capped at 7), and every numeric component has `To` unset or
`From < To`; no per-unit range bounds are enforced. -/
theorem c9_parse_shape (raw : Str) (e : Expression) (h : ParseE raw = some e) :
    (∀ w ∈ e.weekdays,
        1 ≤ w.From ∧ w.From ≤ 7 ∧ (w.To = 0 ∨ (w.From < w.To ∧ w.To ≤ 7))) ∧
      (∀ c ∈ e.years, c.To = 0 ∨ c.From < c.To) ∧
      (∀ c ∈ e.months, c.To = 0 ∨ c.From < c.To) ∧
      (∀ c ∈ e.days, c.To = 0 ∨ c.From < c.To) ∧
      (∀ c ∈ e.hours, c.To = 0 ∨ c.From < c.To) ∧
      (∀ c ∈ e.minutes, c.To = 0 ∨ c.From < c.To) ∧
      (∀ c ∈ e.seconds, c.To = 0 ∨ c.From < c.To) := by
  obtain ⟨⟨_, hw⟩, hys, hms, hds, hhs, hmins, hss, _⟩ := ParseE_good raw e h
  exact ⟨fun w hmem => hw w hmem,
    fun c hc => (hys.2 c hc).2.2.2, fun c hc => (hms.2 c hc).2.2.2,
    fun c hc => (hds.2 c hc).2.2.2, fun c hc => (hhs.2 c hc).2.2.2,
    fun c hc => (hmins.2 c hc).2.2.2, fun c hc => (hss.2 c hc).2.2.2⟩

/-- C9 witness: the amended shape at the parse of
`"Mon 2006-01-02 15:04:05 Europe/Paris"`. -/
theorem c9_parse_shape_witness :
    (∀ w ∈ expParis.weekdays,
        1 ≤ w.From ∧ w.From ≤ 7 ∧ (w.To = 0 ∨ (w.From < w.To ∧ w.To ≤ 7))) ∧
      (∀ c ∈ expParis.years, c.To = 0 ∨ c.From < c.To) ∧
      (∀ c ∈ expParis.months, c.To = 0 ∨ c.From < c.To) ∧
      (∀ c ∈ expParis.days, c.To = 0 ∨ c.From < c.To) ∧
      (∀ c ∈ expParis.hours, c.To = 0 ∨ c.From < c.To) ∧
      (∀ c ∈ expParis.minutes, c.To = 0 ∨ c.From < c.To) ∧
      (∀ c ∈ expParis.seconds, c.To = 0 ∨ c.From < c.To) :=
  c9_parse_shape (("Mon 2006-01-02 15:04:05 Europe/Paris").toList) expParis
    (by decide)
